import Mathlib

/-
Verification development for the epidemic-simulation repository.

The repository simulates an SIR epidemic over a synthetically generated
contact network (networkx).  This file gives a shallow embedding of the
relevant source code:

  * src/network_generator.py            (watts_strogatz_clique_graph and its
                                         helper __add_cliques_to_network,
                                         __create_edges)
  * src/network_generator/poisson_small_world_network.py
  * src/main.py                         (class Epidemic_Network)

together with the parts of the runtime environment the code leans on:
the networkx graph data structure (dict-of-dicts simple graph: unordered
edges stored once, insertion-ordered node/adjacency dictionaries, per-node
and per-edge attribute dictionaries), networkx's watts_strogatz_graph and
complete_graph generators, and the CPython random module entry points the
code calls (setstate, sample, choices, choice) plus numpy poisson draws.

Randomness is modelled by explicit oracle streams: every Bernoulli-style
outcome (random.choices([True, False], ...), seed.random() < p) is read
from a Bool stream, every index-style choice (random.choice, random.sample)
from a Nat stream taken modulo the relevant length, and the numpy Poisson
degree draw is an explicit list parameter.  Universal claims quantify over
all streams; this covers every behaviour of the Python program.  Errors
raised by Python (TypeError, ValueError, KeyError, IndexError,
networkx.NetworkXError) are modelled with Except.
-/

namespace EpidemicSim

instance {ε α : Type} [DecidableEq ε] [DecidableEq α] : DecidableEq (Except ε α) := fun a b =>
  match a, b with
  | .ok x, .ok y =>
      if h : x = y then isTrue (by rw [h])
      else isFalse (fun hh => h (Except.ok.inj hh))
  | .error x, .error y =>
      if h : x = y then isTrue (by rw [h])
      else isFalse (fun hh => h (Except.error.inj hh))
  | .ok _, .error _ => isFalse (fun hh => Except.noConfusion hh)
  | .error _, .ok _ => isFalse (fun hh => Except.noConfusion hh)

/-- Python/library exceptions that the modelled code can raise. -/
inductive Err
  | typeError
  | valueError
  | keyError
  | indexError
  | networkXError
deriving DecidableEq, Repr

/-- Node status strings used by main.py. -/
inductive Status
  | susceptible
  | infected
  | recovered
deriving DecidableEq, Repr

/-- Edge attribute connection_type values used by network_generator.py. -/
inductive CType
  | intra
  | inter
deriving DecidableEq, Repr

/-- A networkx node attribute dictionary as used by main.py: the keys
status and days_with_disease, each possibly absent. -/
structure NodeAttrs where
  status : Option Status
  days_with_disease : Option Nat
deriving DecidableEq, Repr

/-- A networkx edge: an unordered pair of node identifiers with its
attribute dictionary (here only connection_type, possibly absent).
Node identifiers are integers (numpy index arithmetic can in principle
leave [0, n), hence Int rather than Nat). -/
structure Edge where
  u : Int
  v : Int
  ctype : Option CType
deriving DecidableEq, Repr

/-- The stored edge e represents the same unordered pair as (a, b). -/
def edgeMatches (e : Edge) (a b : Int) : Prop :=
  (e.u = a ∧ e.v = b) ∨ (e.u = b ∧ e.v = a)

instance (e : Edge) (a b : Int) : Decidable (edgeMatches e a b) := by
  unfold edgeMatches; infer_instance

/-- A networkx simple Graph: insertion-ordered node list with attribute
dictionaries, and an edge list in which each unordered pair is stored at
most once (networkx keys edges by the unordered pair).  Self-loops are
representable, as in networkx. -/
structure NXGraph where
  nodes : List (Int × NodeAttrs)
  edges : List Edge
deriving DecidableEq, Repr

def emptyGraph : NXGraph := ⟨[], []⟩

def hasNode (g : NXGraph) (x : Int) : Prop := ∃ pa ∈ g.nodes, pa.1 = x

instance (g : NXGraph) (x : Int) : Decidable (hasNode g x) := by
  unfold hasNode; infer_instance

/-- networkx G.add_node: a new node gets an empty attribute dictionary, an
existing node keeps its attributes. -/
def addNode (g : NXGraph) (x : Int) : NXGraph :=
  if hasNode g x then g else { g with nodes := g.nodes ++ [(x, ⟨none, none⟩)] }

def hasEdgeP (g : NXGraph) (a b : Int) : Prop := ∃ e ∈ g.edges, edgeMatches e a b

instance (g : NXGraph) (a b : Int) : Decidable (hasEdgeP g a b) := by
  unfold hasEdgeP; infer_instance

/-- networkx G.add_edge with an optional connection_type attribute: both
endpoints are added as nodes if absent; an existing unordered pair keeps
its stored attribute when none is supplied and has it overwritten when one
is supplied; a new pair is appended. -/
def addEdge (g : NXGraph) (a b : Int) (ct : Option CType) : NXGraph :=
  let g' := addNode (addNode g a) b
  if hasEdgeP g' a b then
    { g' with edges := g'.edges.map (fun e =>
        if edgeMatches e a b then
          { e with ctype := match ct with | some c => some c | none => e.ctype }
        else e) }
  else
    { g' with edges := g'.edges ++ [⟨a, b, ct⟩] }

/-- networkx G.add_edges_from over plain pairs, all with the same optional
connection_type keyword (none models no keyword). -/
def addEdgesFrom (g : NXGraph) (es : List (Int × Int)) (ct : Option CType) : NXGraph :=
  es.foldl (fun h e => addEdge h e.1 e.2 ct) g

/-- networkx G.remove_edge / removal of one unordered pair. -/
def removeEdge (g : NXGraph) (a b : Int) : NXGraph :=
  { g with edges := g.edges.filter (fun e => ¬ edgeMatches e a b) }

/-- networkx G.remove_edges_from(G.edges()): every edge is removed. -/
def removeAllEdges (g : NXGraph) : NXGraph := { g with edges := [] }

/-- networkx nx.set_edge_attributes(G, values=ct, name="connection_type"). -/
def set_edge_attributes (g : NXGraph) (ct : CType) : NXGraph :=
  { g with edges := g.edges.map (fun e => { e with ctype := some ct }) }

/-- networkx nx.set_node_attributes(G, values=s, name="status"): the
status attribute of every node is set. -/
def setAllStatus (g : NXGraph) (s : Status) : NXGraph :=
  { g with nodes := g.nodes.map (fun pa => (pa.1, { pa.2 with status := some s })) }

/-- Setting one node's attributes to Epidemic_Network.infected, i.e.
nx.set_node_attributes(G, values={v: {"status": "infected",
"days_with_disease": 1}}): the dictionary-merge updates both keys. -/
def setNodeInfected (g : NXGraph) (v : Int) : NXGraph :=
  { g with nodes := g.nodes.map (fun pa =>
      if pa.1 = v then (pa.1, ⟨some Status.infected, some 1⟩) else pa) }

/-- networkx G.degree(x): incident edge count, self-loops counted twice. -/
def degree (g : NXGraph) (x : Int) : Nat :=
  g.edges.foldl (fun acc e =>
    acc + (if e.u = x then 1 else 0) + (if e.v = x then 1 else 0)) 0

def numberOfNodes (g : NXGraph) : Nat := g.nodes.length

/-- Attribute dictionary of a node, if the node exists. -/
def lookupAttrs (g : NXGraph) (v : Int) : Option NodeAttrs :=
  (g.nodes.find? (fun pa => pa.1 = v)).map (·.2)

/-- G.nodes[v]["status"]: none both when v is not a node and when the
status key is absent (both raise KeyError in Python). -/
def statusAttr (g : NXGraph) (v : Int) : Option Status :=
  (lookupAttrs g v).bind (·.status)

/-- Adjacency list of x with edge data, in edge-insertion order (networkx
adjacency dictionaries are insertion-ordered); a self-loop appears once. -/
def adjacency (g : NXGraph) (x : Int) : List (Int × Option CType) :=
  g.edges.foldr (fun e acc =>
    if e.u = x then (e.v, e.ctype) :: acc
    else if e.v = x then (e.u, e.ctype) :: acc
    else acc) []

/-- networkx G.edges(nbunch, data=True): for each node of nbunch in order,
its incident edges are reported as (n, neighbor, data), skipping neighbors
already processed as earlier nbunch members (the EdgeDataView seen set). -/
def edgesOfNbunchGo (g : NXGraph) : List Int → List Int → List (Int × Int × Option CType)
  | [], _ => []
  | x :: rest, seen =>
      ((adjacency g x).filter (fun nb => nb.1 ∉ seen)).map (fun nb => (x, nb.1, nb.2))
        ++ edgesOfNbunchGo g rest (x :: seen)

def edgesOfNbunch (g : NXGraph) (ns : List Int) : List (Int × Int × Option CType) :=
  edgesOfNbunchGo g ns []

/-- The list of integers 0, 1, ..., n-1, as produced by range(n). -/
def intRange (n : Nat) : List Int := (List.range n).map Int.ofNat

/-- Structural effectful map over Except, element by element in order
(the monadic map used to model comprehension-with-raise traversals). -/
def mapME {α β : Type} (f : α → Except Err β) : List α → Except Err (List β)
  | [] => .ok []
  | a :: l => do
      let b ← f a
      let bs ← mapME f l
      .ok (b :: bs)

/-- random.choice(l): uniform element of a list, IndexError when empty.
The stream value r selects the index. -/
def choiceE (l : List Int) (r : Nat) : Except Err Int :=
  if h : l.length = 0 then .error .indexError
  else .ok (l.get ⟨r % l.length, Nat.mod_lt r (Nat.pos_of_ne_zero h)⟩)

/-- itertools.combinations(range(n), 2) in order. -/
def combinationPairs (n : Nat) : List (Int × Int) :=
  (List.range n).flatMap (fun i =>
    (List.range n).filterMap (fun j =>
      if i < j then some ((i : Int), (j : Int)) else none))

/-- networkx nx.complete_graph(n): nodes 0..n-1 and all unordered pairs. -/
def complete_graph (n : Nat) : NXGraph :=
  addEdgesFrom ⟨(intRange n).map (fun v => (v, ⟨none, none⟩)), []⟩ (combinationPairs n) none

/-- The ring-lattice pairs of nx.watts_strogatz_graph: for each
j in 1..k//2 and each node i, the pair (i, (i+j) mod n) (zip of the node
list with its rotation by j). -/
def latticePairs (n k : Nat) : List (Int × Int) :=
  (List.range (k / 2)).flatMap (fun jm =>
    (List.range n).map (fun i => ((Int.ofNat i), (Int.ofNat ((i + (jm + 1)) % n)))))

/-- The inner retry loop of nx.watts_strogatz_graph rewiring:
while w == u or G.has_edge(u, w): redraw w; break (skip the rewiring) as
soon as degree(u) >= n-1.  The unbounded randomized retry is modelled with
fuel; fuel exhaustion behaves like the break (the edge is kept).  Returns
some w on normal exit and none on break, with the stream index. -/
def ws_rewire_search (g : NXGraph) (u : Int) (nodes : List Int) (n : Nat)
    (pick : Nat → Nat) : Nat → Int → Nat → Except Err (Option Int × Nat)
  | 0, _, ix => .ok (none, ix)
  | fuel + 1, w, ix =>
    if w = u ∨ hasEdgeP g u w then do
      let w' ← choiceE nodes (pick ix)
      if degree g u ≥ n - 1 then .ok (none, ix + 1)
      else ws_rewire_search g u nodes n pick fuel w' (ix + 1)
    else .ok (some w, ix)

/-- One edge of the nx.watts_strogatz_graph rewiring pass: with the
Bernoulli(p) outcome seed.random() < p read from the rew stream, replace
(u, v) by (u, w) for a fresh w, unless the retry loop breaks. -/
def ws_rewire_step (n : Nat) (rew : Nat → Bool) (pick : Nat → Nat) (fuel : Nat)
    (gix : NXGraph × Nat) (uv : Int × Int) : Except Err (NXGraph × Nat) :=
  if rew gix.2 then do
    let w0 ← choiceE (intRange n) (pick (gix.2 + 1))
    let res ← ws_rewire_search gix.1 uv.1 (intRange n) n pick fuel w0 (gix.2 + 2)
    match res.1 with
    | some w => .ok (addEdge (removeEdge gix.1 uv.1 uv.2) uv.1 w none, res.2)
    | none => .ok (gix.1, res.2)
  else .ok (gix.1, gix.2 + 1)

/-- networkx nx.watts_strogatz_graph(n, k, p, seed).  Raises NetworkXError
when k > n; returns the complete graph when k = n; otherwise builds the
ring lattice (nodes enter the graph only through edges, as in the source)
and rewires each lattice pair independently.  The probability p enters
only through the Bernoulli outcomes, which are read from the rew stream. -/
def watts_strogatz_graph (n k : Nat) (rew : Nat → Bool) (pick : Nat → Nat)
    (fuel : Nat) : Except Err NXGraph :=
  if k > n then .error .networkXError
  else if k = n then .ok (complete_graph n)
  else do
    let g0 := addEdgesFrom emptyGraph (latticePairs n k) none
    let (g, _) ← (latticePairs n k).foldlM (ws_rewire_step n rew pick fuel) (g0, 0)
    .ok g

/-! ## src/network_generator.py — household-clique builder -/

/-- Python list/numpy slice index resolution: negative indices wrap by the
length, then both bounds clamp to [0, len]. -/
def pyIdx (len : Nat) (i : Int) : Int := if i < 0 then i + len else i

/-- Python xs[a:b] (step 1), with wrapping and clamping semantics. -/
def pySlice {α : Type} (xs : List α) (a b : Int) : List α :=
  let n := xs.length
  let lo := max 0 (min (n : Int) (pyIdx n a))
  let hi := max 0 (min (n : Int) (pyIdx n b))
  (xs.take hi.toNat).drop lo.toNat

/-- np.arange(lo, hi) for natural bounds, as integers. -/
def intRangeFrom (lo hi : Nat) : List Int :=
  (List.range (hi - lo)).map (fun t => Int.ofNat (lo + t))

namespace CliqueGen

/-- network_generator.__create_edges(current_node, new_nodes): all ordered
pairs of distinct entries of [current_node, *new_nodes]; the numpy mask
node_list[node_list != node] drops every occurrence equal to node. -/
def create_edges (cur : Int) (ns : List Int) : List (Int × Int) :=
  let nodeList := cur :: ns
  nodeList.flatMap (fun x =>
    (nodeList.filter (fun y => y ≠ x)).map (fun y => (x, y)))

/-- The indexed loop of __add_cliques_to_network: households of size 1 are
skipped, household i takes the next size-1 entries of new_node_list
(slice bookkeeping via the running offset a, an int as in Python) and is
connected into a clique with head node i, tagged intra. -/
def add_cliques_go (newNodes : List Int) :
    List (Nat × Nat) → Int → NXGraph → NXGraph
  | [], _, g => g
  | (i, size) :: rest, a, g =>
    if size = 1 then add_cliques_go newNodes rest a g
    else
      let houseNodes := pySlice newNodes a (a + (size : Int) - 1)
      let g' := addEdgesFrom g (create_edges (Int.ofNat i) houseNodes) (some CType.intra)
      add_cliques_go newNodes rest (a + (size : Int) - 1) g'

/-- network_generator.__add_cliques_to_network(graph, distribution). -/
def add_cliques_to_network (g : NXGraph) (dist : List Nat) : NXGraph :=
  let graphLen := g.nodes.length
  let newNodes := intRangeFrom graphLen dist.sum
  let g' := newNodes.foldl addNode g
  add_cliques_go newNodes dist.enum 0 g'

end CliqueGen

/-- The two shapes of the first argument of watts_strogatz_clique_graph:
a plain node count or a household-size distribution.  len(distribution)
raises TypeError exactly on the int shape, selecting the except branch. -/
inductive GraphInput
  | count (n : Nat)
  | dist (hs : List Nat)
deriving DecidableEq, Repr

/-- network_generator.watts_strogatz_clique_graph(distribution, k, p):
on a list, a Watts-Strogatz graph over the household heads, every edge
tagged inter, then clique expansion; on an int (TypeError branch), a
Watts-Strogatz graph with every edge tagged inter. -/
def watts_strogatz_clique_graph (inp : GraphInput) (k : Nat)
    (rew : Nat → Bool) (pick : Nat → Nat) (fuel : Nat) : Except Err NXGraph :=
  match inp with
  | .dist hs => do
      let g ← watts_strogatz_graph hs.length k rew pick fuel
      .ok (CliqueGen.add_cliques_to_network (set_edge_attributes g CType.inter) hs)
  | .count n => do
      let g ← watts_strogatz_graph n k rew pick fuel
      .ok (set_edge_attributes g CType.inter)

/-! ## src/network_generator/poisson_small_world_network.py -/

namespace PoissonGen

/-- sorted([a, b]) as a pair. -/
def sortPair (a b : Int) : Int × Int := if a ≤ b then (a, b) else (b, a)

/-- Wraparound of right neighbors: entries above n-1 have n subtracted
(once, via the boolean mask). -/
def adjR (n : Nat) (v : Int) : Int := if v > (n : Int) - 1 then v - n else v

/-- Wraparound of left neighbors: negative entries have n added (once). -/
def adjL (n : Nat) (v : Int) : Int := if v < 0 then v + n else v

/-- __get_nearest_neighbors_connections(node, num_connections,
number_of_nodes): ceil(c/2) neighbors to the right, the rest to the left,
wrapped once, each returned as a sorted pair with the node. -/
def get_nearest_neighbors_connections (node cons n : Nat) : List (Int × Int) :=
  let cr := (cons + 1) / 2
  let cl := cons - cr
  let rightConnections := (List.range cr).map
    (fun t : Nat => adjR n ((node : Int) + 1 + (t : Int)))
  let leftConnections := (List.range cl).map
    (fun t : Nat => adjL n ((node : Int) - (cl : Int) + (t : Int)))
  (rightConnections ++ leftConnections).map (fun nb => sortPair (node : Int) nb)

/-- First-occurrence-preserving deduplication, modelling the Python set of
edge tuples (set iteration order is abstracted to first occurrence; all
claims proved about it are order-insensitive). -/
def insertUniq {α : Type} [DecidableEq α] (acc : List α) (x : α) : List α :=
  if x ∈ acc then acc else acc ++ [x]

def dedupPairs (l : List (Int × Int)) : List (Int × Int) :=
  l.foldl insertUniq []

/-- Python list.remove(x): drops the first occurrence, ValueError when
absent. -/
def listRemove (l : List Int) (x : Int) : Except Err (List Int) :=
  if x ∈ l then .ok (l.erase x) else .error .valueError

/-- __rewire_connection(node_connection, probability, number_of_nodes):
when the Bernoulli(p) outcome says rewire, the anchor (first component)
is connected to a uniformly chosen other node. -/
def rewire_connection (e : Int × Int) (n : Nat) (doRewire : Bool) (pk : Nat) :
    Except Err (Int × Int) :=
  if doRewire then do
    let nodes ← listRemove (intRange n) e.1
    let w ← choiceE nodes pk
    .ok (e.1, w)
  else .ok e

/-- __create_edges(number_of_nodes, lam, rewiring_probability): negative p
raises ValueError before anything else; the Poisson degree draws are the
explicit draws list (np.random.poisson(lam, size=n)); the per-node lattice
neighbor lists are flattened and deduplicated as a set; with p > 0 each
deduplicated edge is independently rewired. -/
def create_edges (p : ℚ) (n : Nat) (draws : List Nat)
    (rew : Nat → Bool) (pick : Nat → Nat) : Except Err (List (Int × Int)) :=
  if p < 0 then .error .valueError
  else
    let connectivity := draws.enum.flatMap
      (fun nc => get_nearest_neighbors_connections nc.1 nc.2 n)
    let dedup := dedupPairs connectivity
    if p > 0 then
      mapME (fun ie => rewire_connection ie.2 n (rew ie.1) (pick ie.1)) dedup.enum
    else .ok dedup

/-- poisson_small_world_graph(n, D, p, Graph_to_update).  The
Graph_to_update branch follows Python truthiness of a networkx graph
(nonzero node count); in update mode the input is copied and its edges
removed, otherwise a fresh graph on range(n) is created.  D is the Poisson
mean and enters only through the draws list. -/
def poisson_small_world_graph (n : Nat) (_D : Nat) (p : ℚ)
    (gOpt : Option NXGraph) (draws : List Nat)
    (rew : Nat → Bool) (pick : Nat → Nat) : Except Err NXGraph := do
  let g :=
    match gOpt with
    | some g0 =>
        if g0.nodes.length > 0 then removeAllEdges g0
        else (intRange n).foldl addNode emptyGraph
    | none => (intRange n).foldl addNode emptyGraph
  let es ← create_edges p n draws rew pick
  .ok (addEdgesFrom g es none)

end PoissonGen

/-! ## CPython random module entry points used by main.py -/

/-- A captured random-module state tuple, as returned by random.getstate():
(version, internalstate, gauss_next); the Mersenne Twister internal state
is a tuple of 625 integers and the accepted version is 3. -/
structure RandomState where
  version : Nat
  internalstate : List Nat
deriving DecidableEq, Repr

/-- The validity check random.setstate performs on its argument. -/
def valid_random_state (s : RandomState) : Bool :=
  s.version = 3 ∧ s.internalstate.length = 625

/-- random.setstate(state): TypeError on None (state[0] of None), and a
valid previously-captured state tuple is restored. -/
def random_setstate : Option RandomState → Except Err Unit
  | none => .error .typeError
  | some s => if valid_random_state s then .ok () else .error .valueError

/-- random.sample(population, k): k distinct positions without
replacement, ValueError when the population is exhausted (k > len);
selection indices come from the pick stream. -/
def random_sample : List Int → Nat → (Nat → Nat) → Nat → Except Err (List Int)
  | _, 0, _, _ => .ok []
  | pop, k + 1, pick, ix =>
    if h : pop.length = 0 then .error .valueError
    else
      let i : Fin pop.length := ⟨pick ix % pop.length, Nat.mod_lt _ (Nat.pos_of_ne_zero h)⟩
      (random_sample (pop.eraseIdx i) k pick (ix + 1)).map (pop.get i :: ·)

/-! ## src/main.py — class Epidemic_Network -/

/-- The per-edge-type transmission probabilities r. -/
structure RParams where
  intra : ℚ
  inter : ℚ
deriving DecidableEq, Repr

/-- The Parameters TypedDict: n / household_distribution (as GraphInput),
mean degree D, rewiring probability epsilon, rates r, disease duration d
(compared against day counts, possibly non-integral after an NPI merge),
initial infections i0. -/
structure Parameters where
  input : GraphInput
  D : Nat
  epsilon : ℚ
  r : RParams
  d : ℚ
  i0 : Nat
deriving DecidableEq, Repr

/-- The NpiParameters TypedDict (total=False): every field optionally
present, plus the mandatory trigger day. -/
structure NpiParameters where
  npi_start_day : Nat
  D : Option Nat
  epsilon : Option ℚ
  r : Option RParams
  d : Option ℚ
  household_distribution : Option (List Nat)
deriving DecidableEq, Repr

/-- self.parameters = {**self.parameters, **self.npi_parameters}: override
wins on key collision, all other keys are retained. -/
def merge_parameters (p : Parameters) (np : NpiParameters) : Parameters :=
  { p with
    D := np.D.getD p.D
    epsilon := np.epsilon.getD p.epsilon
    r := np.r.getD p.r
    d := np.d.getD p.d
    input := match np.household_distribution with
      | some hs => GraphInput.dist hs
      | none => p.input }

/-- The oracle streams standing for the shared global random generator:
bern for infection_occurred draws, rew/pick for the builders' rewiring
draws, spick for random.sample positions. -/
structure Rand where
  bern : Nat → Bool
  rew : Nat → Bool
  pick : Nat → Nat
  spick : Nat → Nat

/-- Simulation state owned by one Epidemic_Network instance: the graph
(carrying the per-node status / days_with_disease records), the daily-case
series, and the index into the infection Bernoulli stream. -/
structure SimState where
  g : NXGraph
  daily_cases : List Nat
  bix : Nat
deriving DecidableEq, Repr

/-- count_daily_cases: the number of nodes whose days_with_disease
attribute is present and equal to 1. -/
def newlyP (pa : Int × NodeAttrs) : Bool :=
  match pa.2.days_with_disease with
  | some 1 => true
  | _ => false

def count_daily_cases_value (g : NXGraph) : Nat := g.nodes.countP newlyP

/-- get_by_status(status): nodes carrying that status attribute, in node
order. -/
def get_by_status (g : NXGraph) (s : Status) : List Int :=
  (g.nodes.filter (fun pa => pa.2.status = some s)).map (·.1)

/-- parse_attr in update_disease_progress: an infected node recovers (the
days_with_disease key is popped and status set to recovered) once its day
count reaches the duration d, else the day count is incremented; a missing
days_with_disease key raises KeyError. -/
def parse_attr (d : ℚ) (a : NodeAttrs) : Except Err NodeAttrs :=
  match a.days_with_disease with
  | none => .error .keyError
  | some k =>
      if (k : ℚ) ≥ d then .ok ⟨some Status.recovered, none⟩
      else .ok ⟨a.status, some (k + 1)⟩

/-- update_disease_progress: the node dictionary is traversed in order;
entries whose status is infected are rewritten through parse_attr, the
rest are untouched; a missing status key raises KeyError. -/
def update_disease_progress (d : ℚ) (g : NXGraph) : Except Err NXGraph := do
  let nodes' ← mapME (fun pa =>
    match pa.2.status with
    | none => Except.error Err.keyError
    | some s =>
        if s = Status.infected then
          (parse_attr d pa.2).map (fun a' => (pa.1, a'))
        else .ok pa) g.nodes
  .ok { g with nodes := nodes' }

/-- The loop body of interact over the lazily-filtered susceptibles
generator: each candidate edge (person1, person2, data) is examined in
order; the susceptibility test uses the current state, so a node infected
earlier in the same step is filtered out before any further draw; for a
susceptible target the connection_type is read (KeyError when the edge is
untagged) and one Bernoulli draw decides the infection. -/
def interactGo (bern : Nat → Bool) :
    List (Int × Int × Option CType) → NXGraph → Nat → Except Err (NXGraph × Nat)
  | [], g, ix => .ok (g, ix)
  | (_, p2, ct) :: rest, g, ix =>
    match statusAttr g p2 with
    | none => .error .keyError
    | some s =>
        if s = Status.susceptible then
          match ct with
          | none => .error .keyError
          | some _ =>
              interactGo bern rest
                (if bern ix then setNodeInfected g p2 else g) (ix + 1)
        else interactGo bern rest g ix

/-- interact: the infected list and the edge view over it are computed
from the state at entry (node attribute updates do not change the edge
structure), then the generator loop runs. -/
def interact (bern : Nat → Bool) (g : NXGraph) (ix : Nat) :
    Except Err (NXGraph × Nat) :=
  interactGo bern (edgesOfNbunch g (get_by_status g Status.infected)) g ix

/-- distribute_initial_infection(i0): a uniform sample of i0 distinct
nodes is set to infected with days_with_disease = 1. -/
def distribute_initial_infection (g : NXGraph) (i0 : Nat) (spick : Nat → Nat) :
    Except Err NXGraph := do
  let chosen ← random_sample (g.nodes.map (·.1)) i0 spick 0
  .ok (chosen.foldl setNodeInfected g)

/-- generate_epidemic_network: the clique builder followed by
set_node_attributes(values="susceptible", name="status"). -/
def generate_epidemic_network (inp : GraphInput) (k : Nat)
    (rew : Nat → Bool) (pick : Nat → Nat) (fuel : Nat) : Except Err NXGraph := do
  let g ← watts_strogatz_clique_graph inp k rew pick fuel
  .ok (setAllStatus g Status.susceptible)

/-- __make_structural_changes: H = nx.watts_strogatz_graph(
number_of_nodes, parameters["D"], parameters["epsilon"]); all current
edges are removed and H's edges added (bare pairs: the new edges carry no
connection_type attribute). -/
def make_structural_changes (p : Parameters) (g : NXGraph)
    (rew : Nat → Bool) (pick : Nat → Nat) (fuel : Nat) : Except Err NXGraph := do
  let H ← watts_strogatz_graph (numberOfNodes g) p.D rew pick fuel
  .ok (addEdgesFrom (removeAllEdges g) (H.edges.map (fun e => (e.u, e.v))) none)

/-- __apply_NPI: the override is merged into the parameters; when it
contains a D or epsilon key the topology is regenerated. -/
def apply_NPI (p : Parameters) (np : NpiParameters) (g : NXGraph)
    (rew : Nat → Bool) (pick : Nat → Nat) (fuel : Nat) :
    Except Err (Parameters × NXGraph) := do
  let p' := merge_parameters p np
  if np.D.isSome ∨ np.epsilon.isSome then
    (make_structural_changes p' g rew pick fuel).map (fun g' => (p', g'))
  else .ok (p', g)

/-- One iteration of the day loop for the given day value: count, then
progress, then transmit, then (with day already incremented) the NPI
trigger check npi_parameters["npi_start_day"] == day. -/
def day_step (rand : Rand) (fuel : Nat) (np : Option NpiParameters) (day : Nat)
    (x : Parameters × SimState) : Except Err (Parameters × SimState) := do
  let st1 : SimState :=
    { x.2 with daily_cases := x.2.daily_cases ++ [count_daily_cases_value x.2.g] }
  let g2 ← update_disease_progress x.1.d st1.g
  let gb ← interact rand.bern g2 st1.bix
  match np with
  | some npp =>
      if npp.npi_start_day = day + 1 then
        (apply_NPI x.1 npp gb.1 rand.rew rand.pick fuel).map
          (fun pg => (pg.1, ⟨pg.2, st1.daily_cases, gb.2⟩))
      else .ok (x.1, ⟨gb.1, st1.daily_cases, gb.2⟩)
  | none => .ok (x.1, ⟨gb.1, st1.daily_cases, gb.2⟩)

/-- The while loop of __init__, running t further iterations starting at
the given day value (day = 1 and t = max_days for a full run). -/
def run_days (rand : Rand) (fuel : Nat) (np : Option NpiParameters) :
    Nat → Nat → Parameters × SimState → Except Err (Parameters × SimState)
  | _, 0, x => .ok x
  | day, t + 1, x => day_step rand fuel np day x >>= run_days rand fuel np (day + 1) t

/-- The construction phase of Epidemic_Network.__init__ before the day
loop: random.setstate, network generation, initial infection (plotting
side effects are out of scope). -/
def Epidemic_Network_setup (p : Parameters) (rstate : Option RandomState)
    (rand : Rand) (fuel : Nat) : Except Err (Parameters × SimState) := do
  random_setstate rstate
  let g ← generate_epidemic_network p.input p.D rand.rew rand.pick fuel
  let g' ← distribute_initial_infection g p.i0 rand.spick
  .ok (p, ⟨g', [], 0⟩)

/-- Epidemic_Network.__init__: setup followed by the day loop from day 1
to max_days. -/
def Epidemic_Network_init (p : Parameters) (np : Option NpiParameters)
    (maxDays : Nat) (rstate : Option RandomState) (rand : Rand) (fuel : Nat) :
    Except Err (Parameters × SimState) := do
  let x ← Epidemic_Network_setup p rstate rand fuel
  run_days rand fuel np 1 maxDays x

/-- get_daily_cases(). -/
def get_daily_cases (st : SimState) : List Nat := st.daily_cases

/-! ## Observables and auxiliary notions used by the claims -/

/-- A node that is or has been infected: its status is infected or
recovered.  Because statuses only ever move susceptible to infected to
recovered and every simulated node starts susceptible, this counts the
nodes that ever became infected. -/
def nonSuscP (pa : Int × NodeAttrs) : Bool :=
  match pa.2.status with
  | some Status.infected => true
  | some Status.recovered => true
  | _ => false

def nonSusc (g : NXGraph) : Nat := g.nodes.countP nonSuscP

/-- No edge joins a node to itself. -/
def noSelfLoops (g : NXGraph) : Prop := ∀ e ∈ g.edges, e.u ≠ e.v

/-- Each unordered pair occurs at most once in the edge list. -/
def noDupEdges (g : NXGraph) : Prop :=
  g.edges.Pairwise (fun e f => ¬ edgeMatches f e.u e.v)

/-- Every edge is untagged (carries no connection_type attribute). -/
def edgesUntagged (g : NXGraph) : Prop := ∀ e ∈ g.edges, e.ctype = none

/-- Every edge endpoint lies in [0, n). -/
def edgesInRange (n : Nat) (g : NXGraph) : Prop :=
  ∀ e ∈ g.edges, (0 ≤ e.u ∧ e.u < (n : Int)) ∧ (0 ≤ e.v ∧ e.v < (n : Int))

/-- Node identifiers are pairwise distinct. -/
def keysNodup (g : NXGraph) : Prop := (g.nodes.map Prod.fst).Nodup

/-- Attribute well-formedness maintained by the simulation: an infected
node carries a day count of at least 1, every other node carries none. -/
def WFattrs (a : NodeAttrs) : Prop :=
  (a.status = some Status.infected → ∃ k, a.days_with_disease = some k ∧ 1 ≤ k) ∧
  (a.status ≠ some Status.infected → a.days_with_disease = none)

def WF (g : NXGraph) : Prop := ∀ pa ∈ g.nodes, WFattrs pa.2

/-- A legal single-step status change: unchanged, susceptible to
infected, or infected to recovered. -/
def statusTrans (a b : Option Status) : Prop :=
  b = a ∨ (a = some Status.susceptible ∧ b = some Status.infected) ∨
    (a = some Status.infected ∧ b = some Status.recovered)

/-- Progress of a node along susceptible < infected < recovered. -/
def statusRank : Option Status → Nat
  | some Status.infected => 1
  | some Status.recovered => 2
  | _ => 0

/-- The pointwise effect of update_disease_progress on one node record. -/
def progressRel (d : ℚ) (a b : NodeAttrs) : Prop :=
  (∃ s, a.status = some s ∧ s ≠ Status.infected ∧ b = a) ∨
  (a.status = some Status.infected ∧ ∃ k, a.days_with_disease = some k ∧
     (((k : ℚ) ≥ d ∧ b = ⟨some Status.recovered, none⟩) ∨
      (¬ (k : ℚ) ≥ d ∧ b = ⟨some Status.infected, some (k + 1)⟩)))

/-- The Bernoulli trials performed by the interact loop: the stream
positions drawn by infection_occurred together with the susceptible node
each trial targets.  A candidate produces a trial exactly when its target
is susceptible at the moment the lazy generator reaches it; the recursion
mirrors interactGo (and stops where interactGo raises). -/
def trials (bern : Nat → Bool) :
    List (Int × Int × Option CType) → NXGraph → Nat → List (Int × Nat)
  | [], _, _ => []
  | (_, p2, ct) :: rest, g, ix =>
    match statusAttr g p2 with
    | none => []
    | some s =>
        if s = Status.susceptible then
          match ct with
          | none => []
          | some _ =>
              (p2, ix) :: trials bern rest
                (if bern ix then setNodeInfected g p2 else g) (ix + 1)
        else trials bern rest g ix

/-- The four kinds of mutation the day loop applies to the simulation
state, for stating trajectory invariants over arbitrary step sequences. -/
inductive SimStep
  | count
  | progress
  | transmit
  | npi
deriving DecidableEq, Repr

/-- Application of one day-loop phase to the parameter/state pair, exactly
as the corresponding phase of day_step applies it. -/
def applyStep (rand : Rand) (fuel : Nat) (npp : NpiParameters) :
    SimStep → Parameters × SimState → Except Err (Parameters × SimState)
  | .count, x =>
      .ok (x.1, { x.2 with
        daily_cases := x.2.daily_cases ++ [count_daily_cases_value x.2.g] })
  | .progress, x =>
      (update_disease_progress x.1.d x.2.g).map (fun g' => (x.1, { x.2 with g := g' }))
  | .transmit, x =>
      (interact rand.bern x.2.g x.2.bix).map
        (fun gi => (x.1, { x.2 with g := gi.1, bix := gi.2 }))
  | .npi, x =>
      (apply_NPI x.1 npp x.2.g rand.rew rand.pick fuel).map
        (fun pg => (pg.1, { x.2 with g := pg.2 }))

def applySteps (rand : Rand) (fuel : Nat) (npp : NpiParameters) :
    List SimStep → Parameters × SimState → Except Err (Parameters × SimState)
  | [], x => .ok x
  | s :: rest, x => applyStep rand fuel npp s x >>= applySteps rand fuel npp rest

/-- Modelled from the spec, for comparison in claim C2: the spec asserts
that an NPI override touching D or epsilon regenerates the edge set by
invoking the same builder that was used at initialization (the household
clique builder, for a household run) in update mode over the current node
set with the merged parameters.  No update mode of that builder exists in
the source; the closest reading is a fresh invocation of
watts_strogatz_clique_graph on the original household distribution with
the merged degree parameter. -/
def spec_npi_regenerated_graph (hs : List Nat) (p : Parameters)
    (np : NpiParameters) (rew : Nat → Bool) (pick : Nat → Nat) (fuel : Nat) :
    Except Err NXGraph :=
  watts_strogatz_clique_graph (GraphInput.dist hs) (merge_parameters p np).D rew pick fuel

/-- A valid previously-captured random state, for concrete runs. -/
def someRandomState : RandomState := ⟨3, List.replicate 625 0⟩

/-- Deterministic oracle streams for concrete runs: every infection trial
succeeds, no edge is rewired. -/
def allTrue : Rand := ⟨fun _ => true, fun _ => false, fun _ => 0, fun _ => 0⟩

/-- Concrete parameters for the two-node refutation run of claim C1:
n = 2, D = 2 (complete two-node graph), rates 1, duration 5, one seed. -/
def cexParameters : Parameters := ⟨GraphInput.count 2, 2, 0, ⟨1, 1⟩, 5, 1⟩

/-- Concrete household parameters ([3,3], D = 2, epsilon = 0) for the
claim C2 refutation. -/
def c2Parameters : Parameters := ⟨GraphInput.dist [3, 3], 2, 0, ⟨1, 1⟩, 5, 0⟩

/-- Concrete NPI override touching D only. -/
def c2Npi : NpiParameters := ⟨2, some 2, none, none, none, none⟩

/-- Boolean edge-membership test of an unordered pair. -/
def hasEdgeB (g : NXGraph) (a b : Int) : Bool :=
  g.edges.any (fun e => decide (edgeMatches e a b))

/-- The complete graph on the 5 members of the single household [5] with
every edge tagged intra: the output of the clique builder at k = 1. -/
def c7K5 : NXGraph :=
  ⟨[(0, ⟨none, none⟩), (1, ⟨none, none⟩), (2, ⟨none, none⟩),
    (3, ⟨none, none⟩), (4, ⟨none, none⟩)],
   [⟨0, 1, some CType.intra⟩, ⟨0, 2, some CType.intra⟩, ⟨0, 3, some CType.intra⟩,
    ⟨0, 4, some CType.intra⟩, ⟨1, 2, some CType.intra⟩, ⟨1, 3, some CType.intra⟩,
    ⟨1, 4, some CType.intra⟩, ⟨2, 3, some CType.intra⟩, ⟨2, 4, some CType.intra⟩,
    ⟨3, 4, some CType.intra⟩]⟩

/-- The Poisson builder output at n = 3 with degree draws [5, 0, 0] and
p = 0: the under-corrected wraparound yields the self-loop (0, 0). -/
def c5Graph : NXGraph :=
  ⟨[(0, ⟨none, none⟩), (1, ⟨none, none⟩), (2, ⟨none, none⟩)],
   [⟨0, 1, none⟩, ⟨0, 2, none⟩, ⟨0, 0, none⟩]⟩

/-- The Poisson builder update-mode output at n = 3 on a 3-node graph with
degree draws [0, 0, 7]: the out-of-range neighbor 3 enters the node set. -/
def c8Graph : NXGraph :=
  ⟨[(0, ⟨none, none⟩), (1, ⟨none, none⟩), (2, ⟨none, none⟩), (3, ⟨none, none⟩)],
   [⟨0, 2, none⟩, ⟨1, 2, none⟩, ⟨2, 2, none⟩, ⟨2, 3, none⟩]⟩

/-- The triangle the Poisson builder produces at n = 3 with degree draws
[2, 2, 2] and p = 0 (build and update mode alike). -/
def triangleGraph : NXGraph :=
  ⟨[(0, ⟨none, none⟩), (1, ⟨none, none⟩), (2, ⟨none, none⟩)],
   [⟨0, 1, none⟩, ⟨0, 2, none⟩, ⟨1, 2, none⟩]⟩

/-- The final state of the two-node refutation run of claim C1. -/
def c1Result : Parameters × SimState :=
  (cexParameters,
   ⟨⟨[(0, ⟨some Status.infected, some 2⟩), (1, ⟨some Status.infected, some 1⟩)],
     [⟨0, 1, some CType.inter⟩]⟩, [1], 1⟩)

/-- One-node parameters for a trivially successful construction. -/
def tinyParameters : Parameters := ⟨GraphInput.count 1, 1, 0, ⟨0, 0⟩, 1, 0⟩

/-- The result of constructing with tinyParameters, max_days = 0 and a
valid random state. -/
def tinyResult : Parameters × SimState :=
  (tinyParameters, ⟨⟨[(0, ⟨some Status.susceptible, none⟩)], []⟩, [], 0⟩)

/-- The initial epidemic network of the C2 run: households [3, 3] with
D = 2, epsilon = 0, every node susceptible. -/
def c2InitGraph : NXGraph :=
  ⟨[(0, ⟨some Status.susceptible, none⟩), (1, ⟨some Status.susceptible, none⟩),
    (2, ⟨some Status.susceptible, none⟩), (3, ⟨some Status.susceptible, none⟩),
    (4, ⟨some Status.susceptible, none⟩), (5, ⟨some Status.susceptible, none⟩)],
   [⟨0, 1, some CType.inter⟩, ⟨0, 2, some CType.intra⟩, ⟨0, 3, some CType.intra⟩,
    ⟨2, 3, some CType.intra⟩, ⟨1, 4, some CType.intra⟩, ⟨1, 5, some CType.intra⟩,
    ⟨4, 5, some CType.intra⟩]⟩

/-- The graph after the C2 NPI regeneration: the 6-ring of
nx.watts_strogatz_graph(6, 2, 0) with untagged edges, node records
untouched. -/
def c2RingGraph : NXGraph :=
  ⟨[(0, ⟨some Status.susceptible, none⟩), (1, ⟨some Status.susceptible, none⟩),
    (2, ⟨some Status.susceptible, none⟩), (3, ⟨some Status.susceptible, none⟩),
    (4, ⟨some Status.susceptible, none⟩), (5, ⟨some Status.susceptible, none⟩)],
   [⟨0, 1, none⟩, ⟨1, 2, none⟩, ⟨2, 3, none⟩, ⟨3, 4, none⟩, ⟨4, 5, none⟩,
    ⟨5, 0, none⟩]⟩

/-- A two-node graph with one infected seed and one susceptible node,
joined by an inter-tagged edge: the state Epidemic_Network_setup produces
from cexParameters with a valid random state and the allTrue streams. -/
def c4Start : NXGraph :=
  ⟨[(0, ⟨some Status.infected, some 1⟩), (1, ⟨some Status.susceptible, none⟩)],
   [⟨0, 1, some CType.inter⟩]⟩

/-- c4Start after node 1 is infected by the transmit step. -/
def c4Mid : NXGraph :=
  ⟨[(0, ⟨some Status.infected, some 1⟩), (1, ⟨some Status.infected, some 1⟩)],
   [⟨0, 1, some CType.inter⟩]⟩

/-- The full simulation state at the end of Epidemic_Network_setup on
cexParameters. -/
def c6Setup : Parameters × SimState := (cexParameters, ⟨c4Start, [], 0⟩)

/-! ## Helper lemmas: graph operations -/

theorem edgeMatches_flip {e : Edge} {a b : Int} (ct : Option CType) :
    edgeMatches e a b ↔ edgeMatches ⟨a, b, ct⟩ e.u e.v := by
  unfold edgeMatches
  constructor
  · rintro (⟨h1, h2⟩ | ⟨h1, h2⟩)
    · exact Or.inl ⟨h1.symm, h2.symm⟩
    · exact Or.inr ⟨h2.symm, h1.symm⟩
  · rintro (⟨h1, h2⟩ | ⟨h1, h2⟩)
    · exact Or.inl ⟨h1.symm, h2.symm⟩
    · exact Or.inr ⟨h2.symm, h1.symm⟩

theorem hasEdgeP_of_edges_eq {g h : NXGraph} (he : g.edges = h.edges) (a b : Int) :
    hasEdgeP g a b ↔ hasEdgeP h a b := by
  unfold hasEdgeP; rw [he]

theorem addNode_edges (g : NXGraph) (x : Int) : (addNode g x).edges = g.edges := by
  unfold addNode; split <;> rfl

theorem addNode_nodes (g : NXGraph) (x : Int) :
    (addNode g x).nodes = g.nodes ∨
      ((addNode g x).nodes = g.nodes ++ [(x, ⟨none, none⟩)] ∧ ¬ hasNode g x) := by
  unfold addNode; split
  · exact Or.inl rfl
  · exact Or.inr ⟨rfl, by assumption⟩

theorem addNode_of_hasNode {g : NXGraph} {x : Int} (h : hasNode g x) :
    addNode g x = g := by
  unfold addNode; rw [if_pos h]

theorem addEdge_nodes (g : NXGraph) (a b : Int) (ct : Option CType) :
    (addEdge g a b ct).nodes = (addNode (addNode g a) b).nodes := by
  by_cases h : hasEdgeP (addNode (addNode g a) b) a b <;>
    simp only [addEdge, h, if_true, if_false]

theorem addEdge_edges (g : NXGraph) (a b : Int) (ct : Option CType) :
    (addEdge g a b ct).edges =
      if hasEdgeP g a b then
        g.edges.map (fun e =>
          if edgeMatches e a b then
            { e with ctype := match ct with | some c => some c | none => e.ctype }
          else e)
      else g.edges ++ [⟨a, b, ct⟩] := by
  have h2 : (addNode (addNode g a) b).edges = g.edges := by
    rw [addNode_edges, addNode_edges]
  by_cases h : hasEdgeP g a b
  · have h' : hasEdgeP (addNode (addNode g a) b) a b :=
      (hasEdgeP_of_edges_eq h2 a b).mpr h
    simp only [addEdge, h, h', if_true, h2]
  · have h' : ¬ hasEdgeP (addNode (addNode g a) b) a b :=
      fun hc => h ((hasEdgeP_of_edges_eq h2 a b).mp hc)
    simp only [addEdge, h, h', if_false, h2]

/-- The edge list produced by addEdge depends only on the input edge
list. -/
theorem addEdge_edges_congr {g h : NXGraph} (he : g.edges = h.edges)
    (a b : Int) (ct : Option CType) :
    (addEdge g a b ct).edges = (addEdge h a b ct).edges := by
  rw [addEdge_edges, addEdge_edges, he]
  have hiff := hasEdgeP_of_edges_eq he a b
  by_cases hc : hasEdgeP h a b
  · rw [if_pos (hiff.mpr hc), if_pos hc]
  · rw [if_neg (fun hg => hc (hiff.mp hg)), if_neg hc]

theorem addEdgesFrom_edges_congr {g h : NXGraph} (he : g.edges = h.edges)
    (es : List (Int × Int)) (ct : Option CType) :
    (addEdgesFrom g es ct).edges = (addEdgesFrom h es ct).edges := by
  induction es generalizing g h with
  | nil => exact he
  | cons e rest ih =>
      exact ih (addEdge_edges_congr he e.1 e.2 ct)

theorem addEdgesFrom_nil (g : NXGraph) (ct : Option CType) :
    addEdgesFrom g [] ct = g := rfl

theorem addEdgesFrom_cons (g : NXGraph) (e : Int × Int) (es : List (Int × Int))
    (ct : Option CType) :
    addEdgesFrom g (e :: es) ct = addEdgesFrom (addEdge g e.1 e.2 ct) es ct := rfl

/-- Nodes added by addEdge: unchanged when both endpoints exist. -/
theorem addEdge_nodes_of_hasNode {g : NXGraph} {a b : Int}
    (ha : hasNode g a) (hb : hasNode g b) (ct : Option CType) :
    (addEdge g a b ct).nodes = g.nodes := by
  rw [addEdge_nodes, addNode_of_hasNode ha, addNode_of_hasNode hb]

theorem hasNode_of_nodes_eq {g h : NXGraph} (hn : g.nodes = h.nodes) (x : Int) :
    hasNode g x ↔ hasNode h x := by
  unfold hasNode; rw [hn]

/-- Nodes of addEdgesFrom: unchanged when every endpoint already exists. -/
theorem addEdgesFrom_nodes_of_hasNode {g : NXGraph} {es : List (Int × Int)}
    (h : ∀ e ∈ es, hasNode g e.1 ∧ hasNode g e.2) (ct : Option CType) :
    (addEdgesFrom g es ct).nodes = g.nodes := by
  induction es generalizing g with
  | nil => rfl
  | cons e rest ih =>
      rw [addEdgesFrom_cons]
      have he := h e (List.mem_cons_self e rest)
      have hn : (addEdge g e.1 e.2 ct).nodes = g.nodes :=
        addEdge_nodes_of_hasNode he.1 he.2 ct
      rw [ih (fun f hf => by
        have hff := h f (List.mem_cons_of_mem e hf)
        exact ⟨(hasNode_of_nodes_eq hn f.1).mpr hff.1,
               (hasNode_of_nodes_eq hn f.2).mpr hff.2⟩), hn]

/-- Nodes of addEdgesFrom in general: the original nodes followed by
fresh endpoints carrying empty attribute dictionaries; key distinctness
is preserved. -/
theorem addEdgesFrom_nodes_extend (g : NXGraph) (es : List (Int × Int))
    (ct : Option CType) :
    ∃ app, (addEdgesFrom g es ct).nodes = g.nodes ++ app
      ∧ (∀ pa ∈ app, pa.2 = (⟨none, none⟩ : NodeAttrs))
      ∧ (keysNodup g → keysNodup (addEdgesFrom g es ct)) := by
  induction es generalizing g with
  | nil => exact ⟨[], by simp [addEdgesFrom_nil], by simp, fun h => h⟩
  | cons e rest ih =>
      rw [addEdgesFrom_cons]
      have key : ∃ app₁, (addEdge g e.1 e.2 ct).nodes = g.nodes ++ app₁
          ∧ (∀ pa ∈ app₁, pa.2 = (⟨none, none⟩ : NodeAttrs))
          ∧ (keysNodup g → keysNodup (addEdge g e.1 e.2 ct)) := by
        have hstep : ∀ (h : NXGraph) (x : Int),
            ∃ app₀, (addNode h x).nodes = h.nodes ++ app₀
              ∧ (∀ pa ∈ app₀, pa.2 = (⟨none, none⟩ : NodeAttrs))
              ∧ (keysNodup h → keysNodup (addNode h x)) := by
          intro h x
          rcases addNode_nodes h x with hn | ⟨hn, hx⟩
          · exact ⟨[], by simp [hn], by simp, fun hh => by
              unfold keysNodup at hh ⊢; rw [hn]; exact hh⟩
          · refine ⟨[(x, ⟨none, none⟩)], hn, by simp, fun hh => ?_⟩
            unfold keysNodup at hh ⊢
            rw [hn, List.map_append]
            simp only [List.map_cons, List.map_nil]
            rw [List.nodup_append]
            refine ⟨hh, List.nodup_singleton x, ?_⟩
            intro y hy hy2
            simp only [List.mem_singleton] at hy2
            subst hy2
            exact hx (by
              simp only [List.mem_map] at hy
              obtain ⟨pa, hpa, hpe⟩ := hy
              exact ⟨pa, hpa, hpe⟩)
        obtain ⟨a₁, h₁, he₁, hk₁⟩ := hstep g e.1
        obtain ⟨a₂, h₂, he₂, hk₂⟩ := hstep (addNode g e.1) e.2
        refine ⟨a₁ ++ a₂, ?_, ?_, ?_⟩
        · rw [addEdge_nodes, h₂, h₁, List.append_assoc]
        · intro pa hpa
          rcases List.mem_append.mp hpa with hh | hh
          exacts [he₁ pa hh, he₂ pa hh]
        · intro hh
          unfold keysNodup at hk₁ hk₂ ⊢
          rw [addEdge_nodes]
          exact hk₂ (hk₁ hh)
      obtain ⟨a₁, h₁, he₁, hk₁⟩ := key
      obtain ⟨a₂, h₂, he₂, hk₂⟩ := ih (addEdge g e.1 e.2 ct)
      refine ⟨a₁ ++ a₂, ?_, ?_, fun hh => hk₂ (hk₁ hh)⟩
      · rw [h₂, h₁, List.append_assoc]
      · intro pa hpa
        rcases List.mem_append.mp hpa with hh | hh
        exacts [he₁ pa hh, he₂ pa hh]

/-! ## Helper lemmas: edge-set invariants -/

theorem noDupEdges_addEdge {g : NXGraph} (h : noDupEdges g) (a b : Int)
    (ct : Option CType) : noDupEdges (addEdge g a b ct) := by
  unfold noDupEdges at h ⊢
  rw [addEdge_edges]
  by_cases hc : hasEdgeP g a b
  · rw [if_pos hc, List.pairwise_map]
    refine h.imp_of_mem ?_
    intro e f _ _ hne
    by_cases he : edgeMatches e a b <;> by_cases hf : edgeMatches f a b <;>
      simp only [he, hf, if_true, if_false, ite_true, ite_false] <;>
      simpa [edgeMatches] using hne
  · rw [if_neg hc, List.pairwise_append]
    refine ⟨h, List.pairwise_singleton _ _, ?_⟩
    intro e he f hf
    simp only [List.mem_singleton] at hf
    subst hf
    intro hm
    exact hc ⟨e, he, (edgeMatches_flip ct).mpr hm⟩

theorem noSelfLoops_addEdge {g : NXGraph} (h : noSelfLoops g) {a b : Int}
    (hab : a ≠ b) (ct : Option CType) : noSelfLoops (addEdge g a b ct) := by
  unfold noSelfLoops at h ⊢
  rw [addEdge_edges]
  by_cases hc : hasEdgeP g a b
  · rw [if_pos hc]
    intro e he
    obtain ⟨f, hf, hfe⟩ := List.mem_map.mp he
    by_cases hm : edgeMatches f a b <;> simp only [hm, if_true, if_false,
      ite_true, ite_false] at hfe <;> subst hfe
    · exact h f hf
    · exact h f hf
  · rw [if_neg hc]
    intro e he
    rcases List.mem_append.mp he with hh | hh
    · exact h e hh
    · simp only [List.mem_singleton] at hh; subst hh; exact hab

theorem edgesUntagged_addEdge {g : NXGraph} (h : edgesUntagged g) (a b : Int) :
    edgesUntagged (addEdge g a b none) := by
  unfold edgesUntagged at h ⊢
  rw [addEdge_edges]
  by_cases hc : hasEdgeP g a b
  · rw [if_pos hc]
    intro e he
    obtain ⟨f, hf, hfe⟩ := List.mem_map.mp he
    by_cases hm : edgeMatches f a b <;> simp only [hm, if_true, if_false,
      ite_true, ite_false] at hfe <;> subst hfe
    · exact h f hf
    · exact h f hf
  · rw [if_neg hc]
    intro e he
    rcases List.mem_append.mp he with hh | hh
    · exact h e hh
    · simp only [List.mem_singleton] at hh; subst hh; rfl

theorem edgesInRange_addEdge {n : Nat} {g : NXGraph} (h : edgesInRange n g)
    {a b : Int} (hab : (0 ≤ a ∧ a < (n : Int)) ∧ (0 ≤ b ∧ b < (n : Int)))
    (ct : Option CType) : edgesInRange n (addEdge g a b ct) := by
  unfold edgesInRange at h ⊢
  rw [addEdge_edges]
  by_cases hc : hasEdgeP g a b
  · rw [if_pos hc]
    intro e he
    obtain ⟨f, hf, hfe⟩ := List.mem_map.mp he
    by_cases hm : edgeMatches f a b <;> simp only [hm, if_true, if_false,
      ite_true, ite_false] at hfe <;> subst hfe
    · exact h f hf
    · exact h f hf
  · rw [if_neg hc]
    intro e he
    rcases List.mem_append.mp he with hh | hh
    · exact h e hh
    · simp only [List.mem_singleton] at hh; subst hh; exact hab

theorem noDupEdges_addEdgesFrom {g : NXGraph} (h : noDupEdges g)
    (es : List (Int × Int)) (ct : Option CType) :
    noDupEdges (addEdgesFrom g es ct) := by
  induction es generalizing g with
  | nil => exact h
  | cons e rest ih => exact ih (noDupEdges_addEdge h e.1 e.2 ct)

theorem noSelfLoops_addEdgesFrom {g : NXGraph} (h : noSelfLoops g)
    {es : List (Int × Int)} (hes : ∀ e ∈ es, e.1 ≠ e.2) (ct : Option CType) :
    noSelfLoops (addEdgesFrom g es ct) := by
  induction es generalizing g with
  | nil => exact h
  | cons e rest ih =>
      exact ih (noSelfLoops_addEdge h (hes e (List.mem_cons_self e rest)) ct)
        (fun f hf => hes f (List.mem_cons_of_mem e hf))

theorem edgesUntagged_addEdgesFrom {g : NXGraph} (h : edgesUntagged g)
    (es : List (Int × Int)) : edgesUntagged (addEdgesFrom g es none) := by
  induction es generalizing g with
  | nil => exact h
  | cons e rest ih => exact ih (edgesUntagged_addEdge h e.1 e.2)

theorem edgesInRange_addEdgesFrom {n : Nat} {g : NXGraph} (h : edgesInRange n g)
    {es : List (Int × Int)}
    (hes : ∀ e ∈ es, (0 ≤ e.1 ∧ e.1 < (n : Int)) ∧ (0 ≤ e.2 ∧ e.2 < (n : Int)))
    (ct : Option CType) : edgesInRange n (addEdgesFrom g es ct) := by
  induction es generalizing g with
  | nil => exact h
  | cons e rest ih =>
      exact ih (edgesInRange_addEdge h (hes e (List.mem_cons_self e rest)) ct)
        (fun f hf => hes f (List.mem_cons_of_mem e hf))

theorem noDupEdges_removeEdge {g : NXGraph} (h : noDupEdges g) (a b : Int) :
    noDupEdges (removeEdge g a b) :=
  List.Pairwise.sublist (List.filter_sublist _) h

theorem noSelfLoops_removeEdge {g : NXGraph} (h : noSelfLoops g) (a b : Int) :
    noSelfLoops (removeEdge g a b) := by
  intro e he
  exact h e (List.mem_of_mem_filter he)

theorem edgesUntagged_removeEdge {g : NXGraph} (h : edgesUntagged g) (a b : Int) :
    edgesUntagged (removeEdge g a b) := by
  intro e he
  exact h e (List.mem_of_mem_filter he)

theorem edgesInRange_removeEdge {n : Nat} {g : NXGraph} (h : edgesInRange n g)
    (a b : Int) : edgesInRange n (removeEdge g a b) := by
  intro e he
  exact h e (List.mem_of_mem_filter he)

/-- Adding pairwise-distinct pairs to an edge-free graph produces exactly
those pairs as edges, in order, each with the supplied tag. -/
theorem addEdgesFrom_edges_fresh {g : NXGraph} {es : List (Int × Int)}
    (hg : ∀ e ∈ g.edges, ∀ p ∈ es, ¬ edgeMatches e p.1 p.2)
    (hes : es.Pairwise (fun p q => ¬ edgeMatches ⟨p.1, p.2, none⟩ q.1 q.2))
    (ct : Option CType) :
    (addEdgesFrom g es ct).edges =
      g.edges ++ es.map (fun p => ⟨p.1, p.2, ct⟩) := by
  induction es generalizing g with
  | nil => simp [addEdgesFrom_nil]
  | cons e rest ih =>
      rw [addEdgesFrom_cons]
      have hne : ¬ hasEdgeP g e.1 e.2 := by
        rintro ⟨f, hf, hm⟩
        exact hg f hf e (List.mem_cons_self e rest) hm
      have hedges : (addEdge g e.1 e.2 ct).edges = g.edges ++ [⟨e.1, e.2, ct⟩] := by
        rw [addEdge_edges, if_neg hne]
      rw [ih (g := addEdge g e.1 e.2 ct) ?_ (List.Pairwise.sublist
        (List.sublist_cons_self e rest) hes), hedges]
      · simp
      · intro f hf p hp
        rw [hedges] at hf
        rcases List.mem_append.mp hf with hh | hh
        · exact hg f hh p (List.mem_cons_of_mem e hp)
        · simp only [List.mem_singleton] at hh
          subst hh
          exact (List.pairwise_cons.mp hes).1 p hp

/-! ## Helper lemmas: the networkx generators -/

theorem mem_intRange {n : Nat} {x : Int} : x ∈ intRange n ↔ 0 ≤ x ∧ x < (n : Int) := by
  unfold intRange
  simp only [List.mem_map, List.mem_range]
  constructor
  · rintro ⟨i, hi, rfl⟩
    simp only [Int.ofNat_eq_coe]
    omega
  · rintro ⟨h0, hn⟩
    refine ⟨x.toNat, by omega, ?_⟩
    simp only [Int.ofNat_eq_coe]
    omega

theorem intRange_nodup (n : Nat) : (intRange n).Nodup :=
  (List.nodup_range n).map (fun _ _ => Int.ofNat_inj.mp)

theorem addEdge_as_addEdgesFrom (g : NXGraph) (a b : Int) (ct : Option CType) :
    addEdge g a b ct = addEdgesFrom g [(a, b)] ct := rfl

theorem foldl_addNode_edges (g : NXGraph) (ns : List Int) :
    (ns.foldl addNode g).edges = g.edges := by
  induction ns generalizing g with
  | nil => rfl
  | cons x rest ih => rw [List.foldl_cons, ih, addNode_edges]

theorem foldl_addNode_nodes_extend (g : NXGraph) (ns : List Int) :
    ∃ app, (ns.foldl addNode g).nodes = g.nodes ++ app
      ∧ (∀ pa ∈ app, pa.2 = (⟨none, none⟩ : NodeAttrs))
      ∧ (keysNodup g → keysNodup (ns.foldl addNode g)) := by
  induction ns generalizing g with
  | nil => exact ⟨[], by simp, by simp, fun h => h⟩
  | cons x rest ih =>
      obtain ⟨a₂, h₂, he₂, hk₂⟩ := ih (addNode g x)
      obtain ⟨a₀, h₀, he₀, hk₀⟩ := addEdgesFrom_nodes_extend g [(x, x)] none
      rcases addNode_nodes g x with hn | ⟨hn, hx⟩
      · refine ⟨a₂, ?_, he₂, ?_⟩
        · rw [List.foldl_cons, h₂, hn]
        · intro h
          refine hk₂ ?_
          unfold keysNodup at h ⊢
          rw [hn]; exact h
      · refine ⟨(x, ⟨none, none⟩) :: a₂, ?_, ?_, ?_⟩
        · rw [List.foldl_cons, h₂, hn, List.append_assoc]
          rfl
        · intro pa hpa
          rcases List.mem_cons.mp hpa with hh | hh
          · rw [hh]
          · exact he₂ pa hh
        · intro h
          refine hk₂ ?_
          unfold keysNodup at h ⊢
          rw [hn, List.map_append]
          simp only [List.map_cons, List.map_nil]
          rw [List.nodup_append]
          refine ⟨h, List.nodup_singleton x, ?_⟩
          intro y hy hy2
          simp only [List.mem_singleton] at hy2
          subst hy2
          refine hx ?_
          simp only [List.mem_map] at hy
          obtain ⟨pa, hpa, hpe⟩ := hy
          exact ⟨pa, hpa, hpe⟩

theorem mem_combinationPairs {n : Nat} {p : Int × Int}
    (h : p ∈ combinationPairs n) :
    ∃ i j : Nat, i < j ∧ j < n ∧ p = ((i : Int), (j : Int)) := by
  unfold combinationPairs at h
  obtain ⟨i, hi, hp⟩ := List.mem_flatMap.mp h
  obtain ⟨j, hj, hpj⟩ := List.mem_filterMap.mp hp
  by_cases hij : i < j
  · rw [if_pos hij] at hpj
    exact ⟨i, j, hij, List.mem_range.mp hj, (Option.some.inj hpj).symm⟩
  · rw [if_neg hij] at hpj
    exact absurd hpj (by simp)

theorem mem_latticePairs {n k : Nat} {p : Int × Int}
    (h : p ∈ latticePairs n k) :
    ∃ i s : Nat, i < n ∧ 1 ≤ s ∧ s ≤ k / 2 ∧
      p = ((i : Int), (((i + s) % n : Nat) : Int)) := by
  unfold latticePairs at h
  obtain ⟨jm, hjm, hp⟩ := List.mem_flatMap.mp h
  obtain ⟨i, hi, hpi⟩ := List.mem_map.mp hp
  exact ⟨i, jm + 1, List.mem_range.mp hi, Nat.le_add_left 1 jm,
    Nat.succ_le_of_lt (List.mem_range.mp hjm), hpi.symm⟩

theorem ring_target_ne {i s n : Nat} (hi : i < n) (h1 : 1 ≤ s) (hs : s < n) :
    (i + s) % n ≠ i := by
  rcases Nat.lt_or_ge (i + s) n with hc | hc
  · rw [Nat.mod_eq_of_lt hc]; omega
  · have h2 : i + s - n < n := by omega
    rw [Nat.mod_eq_sub_mod hc, Nat.mod_eq_of_lt h2]; omega

theorem choiceE_mem {l : List Int} {r : Nat} {x : Int} (h : choiceE l r = .ok x) :
    x ∈ l := by
  unfold choiceE at h
  split at h
  · exact absurd h (by simp)
  · exact (Except.ok.inj h) ▸ List.get_mem l _ _

theorem ws_rewire_search_some {g : NXGraph} {u : Int} {nodes : List Int} {n : Nat}
    {pick : Nat → Nat} :
    ∀ {fuel : Nat} {w0 : Int} {ix : Nat} {w : Int} {ix' : Nat},
    w0 ∈ nodes →
    ws_rewire_search g u nodes n pick fuel w0 ix = .ok (some w, ix') →
    w ∈ nodes ∧ ¬ w = u ∧ ¬ hasEdgeP g u w := by
  intro fuel
  induction fuel with
  | zero =>
      intro w0 ix w ix' hw0 h
      exact absurd (congrArg Prod.fst (Except.ok.inj h)) (by simp)
  | succ fuel ih =>
      intro w0 ix w ix' hw0 h
      unfold ws_rewire_search at h
      split at h
      · rcases hc : choiceE nodes (pick ix) with herr | w'
        · rw [hc] at h
          exact absurd h (by simp [Bind.bind, Except.bind])
        · rw [hc] at h
          simp only [Bind.bind, Except.bind] at h
          split at h
          · exact absurd (congrArg Prod.fst (Except.ok.inj h)) (by simp)
          · exact ih (choiceE_mem hc) h
      · have hw : w0 = w := Option.some.inj (congrArg Prod.fst (Except.ok.inj h))
        subst hw
        rename_i hcond
        exact ⟨hw0, fun he => hcond (Or.inl he), fun he => hcond (Or.inr he)⟩

/-- The possible outcomes of one rewiring step: either the graph is kept,
or the pair (u, v) is replaced by (u, w) for a fresh in-range w distinct
from u and not already adjacent to u. -/
theorem ws_rewire_step_cases {n : Nat} {rew : Nat → Bool} {pick : Nat → Nat}
    {fuel : Nat} {g : NXGraph} {ix : Nat} {u v : Int} {g' : NXGraph} {ix' : Nat}
    (h : ws_rewire_step n rew pick fuel (g, ix) (u, v) = .ok (g', ix')) :
    g' = g ∨ ∃ w, w ∈ intRange n ∧ ¬ w = u ∧ ¬ hasEdgeP g u w ∧
      g' = addEdge (removeEdge g u v) u w none := by
  unfold ws_rewire_step at h
  split at h
  · rcases hc : choiceE (intRange n) (pick (ix + 1)) with herr | w0
    · rw [hc] at h
      exact absurd h (by simp [Bind.bind, Except.bind])
    · rw [hc] at h
      simp only [Bind.bind, Except.bind] at h
      rcases hs : ws_rewire_search g u (intRange n) n pick fuel w0 (ix + 2) with
        herr2 | res
      · rw [hs] at h
        exact absurd h (by simp)
      · rw [hs] at h
        simp only at h
        obtain ⟨res1, ix2⟩ := res
        cases res1 with
        | some w =>
            have hprops := ws_rewire_search_some (choiceE_mem hc) hs
            refine Or.inr ⟨w, hprops.1, hprops.2.1, hprops.2.2, ?_⟩
            exact (congrArg Prod.fst (Except.ok.inj h)).symm
        | none =>
            exact Or.inl (congrArg Prod.fst (Except.ok.inj h)).symm
  · exact Or.inl (congrArg Prod.fst (Except.ok.inj h)).symm

/-- The rewiring pass preserves the structural edge invariants: no
duplicates, no self-loops, untagged edges, and endpoints within range. -/
theorem ws_rewire_fold_inv {n : Nat} {rew : Nat → Bool} {pick : Nat → Nat}
    {fuel : Nat} :
    ∀ (ps : List (Int × Int)) (g : NXGraph) (ix : Nat) (out : NXGraph × Nat),
    (∀ p ∈ ps, 0 ≤ p.1 ∧ p.1 < (n : Int)) →
    noDupEdges g → noSelfLoops g → edgesUntagged g → edgesInRange n g →
    (∀ pa ∈ g.nodes, pa.2 = (⟨none, none⟩ : NodeAttrs)) → keysNodup g →
    List.foldlM (ws_rewire_step n rew pick fuel) (g, ix) ps = .ok out →
    noDupEdges out.1 ∧ noSelfLoops out.1 ∧ edgesUntagged out.1 ∧
      edgesInRange n out.1 ∧
      (∀ pa ∈ out.1.nodes, pa.2 = (⟨none, none⟩ : NodeAttrs)) ∧ keysNodup out.1
  | [], g, ix, out, _, h1, h2, h3, h4, h5, h6, hfold => by
      have hpure : List.foldlM (ws_rewire_step n rew pick fuel) (g, ix) [] =
          Except.ok (g, ix) := rfl
      rw [hpure] at hfold
      have : out = (g, ix) := (Except.ok.inj hfold).symm
      rw [this]
      exact ⟨h1, h2, h3, h4, h5, h6⟩
  | (u, v) :: ps, g, ix, out, hps, h1, h2, h3, h4, h5, h6, hfold => by
      rw [List.foldlM_cons] at hfold
      rcases hstep : ws_rewire_step n rew pick fuel (g, ix) (u, v) with herr | gi
      · rw [hstep] at hfold
        exact absurd hfold (by simp [Bind.bind, Except.bind])
      · rw [hstep] at hfold
        simp only [Bind.bind, Except.bind] at hfold
        obtain ⟨g₁, ix₁⟩ := gi
        have hrest : ∀ p ∈ ps, 0 ≤ p.1 ∧ p.1 < (n : Int) :=
          fun p hp => hps p (List.mem_cons_of_mem _ hp)
        rcases ws_rewire_step_cases hstep with hkeep | ⟨w, hwmem, hwu, hwedge, hrw⟩
        · subst hkeep
          exact ws_rewire_fold_inv ps g₁ ix₁ out hrest h1 h2 h3 h4 h5 h6 hfold
        · subst hrw
          have hu := hps (u, v) (List.mem_cons_self _ _)
          have hw := mem_intRange.mp hwmem
          have hnd : noDupEdges (addEdge (removeEdge g u v) u w none) :=
            noDupEdges_addEdge (noDupEdges_removeEdge h1 u v) u w none
          have hsl : noSelfLoops (addEdge (removeEdge g u v) u w none) :=
            noSelfLoops_addEdge (noSelfLoops_removeEdge h2 u v)
              (fun he => hwu he.symm) none
          have hut : edgesUntagged (addEdge (removeEdge g u v) u w none) :=
            edgesUntagged_addEdge (edgesUntagged_removeEdge h3 u v) u w
          have hir : edgesInRange n (addEdge (removeEdge g u v) u w none) :=
            edgesInRange_addEdge (edgesInRange_removeEdge h4 u v)
              ⟨⟨hu.1, hu.2⟩, ⟨hw.1, hw.2⟩⟩ none
          have hext := addEdgesFrom_nodes_extend (removeEdge g u v) [(u, w)] none
          rw [← addEdge_as_addEdgesFrom] at hext
          obtain ⟨app, happ, hemp, hkn⟩ := hext
          have h5' : ∀ pa ∈ (addEdge (removeEdge g u v) u w none).nodes,
              pa.2 = (⟨none, none⟩ : NodeAttrs) := by
            intro pa hpa
            rw [happ] at hpa
            rcases List.mem_append.mp hpa with hh | hh
            · exact h5 pa hh
            · exact hemp pa hh
          have h6' : keysNodup (addEdge (removeEdge g u v) u w none) := hkn h6
          exact ws_rewire_fold_inv ps _ ix₁ out hrest hnd hsl hut hir h5' h6' hfold

/-- Structural properties of the modelled nx.complete_graph. -/
theorem complete_graph_props (n : Nat) :
    noDupEdges (complete_graph n) ∧ noSelfLoops (complete_graph n) ∧
    edgesUntagged (complete_graph n) ∧ edgesInRange n (complete_graph n) ∧
    (∀ pa ∈ (complete_graph n).nodes, pa.2 = (⟨none, none⟩ : NodeAttrs)) ∧
    keysNodup (complete_graph n) := by
  have hbase : (⟨(intRange n).map (fun v => (v, ⟨none, none⟩)), []⟩ : NXGraph).edges
      = [] := rfl
  have hb1 : noDupEdges ⟨(intRange n).map (fun v => (v, ⟨none, none⟩)), []⟩ :=
    List.Pairwise.nil
  have hb2 : noSelfLoops ⟨(intRange n).map (fun v => (v, ⟨none, none⟩)), []⟩ :=
    fun e he => absurd he (List.not_mem_nil e)
  have hb3 : edgesUntagged ⟨(intRange n).map (fun v => (v, ⟨none, none⟩)), []⟩ :=
    fun e he => absurd he (List.not_mem_nil e)
  have hb4 : edgesInRange n ⟨(intRange n).map (fun v => (v, ⟨none, none⟩)), []⟩ :=
    fun e he => absurd he (List.not_mem_nil e)
  have hpairs : ∀ p ∈ combinationPairs n, p.1 ≠ p.2 := by
    intro p hp
    obtain ⟨i, j, hij, hjn, rfl⟩ := mem_combinationPairs hp
    simp only [ne_eq, Int.ofNat_eq_coe]
    omega
  refine ⟨noDupEdges_addEdgesFrom hb1 _ _,
    noSelfLoops_addEdgesFrom hb2 hpairs _,
    edgesUntagged_addEdgesFrom hb3 _, ?_, ?_, ?_⟩
  · refine edgesInRange_addEdgesFrom hb4 ?_ none
    intro p hp
    obtain ⟨i, j, hij, hjn, rfl⟩ := mem_combinationPairs hp
    simp only [Int.ofNat_eq_coe]
    omega
  · intro pa hpa
    obtain ⟨app, happ, hemp, _⟩ :=
      addEdgesFrom_nodes_extend ⟨(intRange n).map (fun v => (v, ⟨none, none⟩)), []⟩
        (combinationPairs n) none
    rw [show (complete_graph n).nodes =
      ((⟨(intRange n).map (fun v => (v, ⟨none, none⟩)), []⟩ : NXGraph).nodes ++ app)
      from happ] at hpa
    rcases List.mem_append.mp hpa with hh | hh
    · obtain ⟨x, _, hx⟩ := List.mem_map.mp hh
      rw [← hx]
    · exact hemp pa hh
  · obtain ⟨app, happ, hemp, hkn⟩ :=
      addEdgesFrom_nodes_extend ⟨(intRange n).map (fun v => (v, ⟨none, none⟩)), []⟩
        (combinationPairs n) none
    refine hkn ?_
    unfold keysNodup
    simp only [List.map_map]
    exact (intRange_nodup n).map (fun _ _ h => h)

/-- Structural properties of the modelled nx.watts_strogatz_graph output:
no duplicate pairs, no self-loops, untagged edges, endpoints in [0, n),
empty node attribute dictionaries and distinct node identifiers. -/
theorem ws_graph_props {n k : Nat} {rew : Nat → Bool} {pick : Nat → Nat}
    {fuel : Nat} {H : NXGraph}
    (h : watts_strogatz_graph n k rew pick fuel = .ok H) :
    noDupEdges H ∧ noSelfLoops H ∧ edgesUntagged H ∧ edgesInRange n H ∧
    (∀ pa ∈ H.nodes, pa.2 = (⟨none, none⟩ : NodeAttrs)) ∧ keysNodup H := by
  unfold watts_strogatz_graph at h
  split at h
  · exact absurd h (by simp)
  · split at h
    · have hH : H = complete_graph n := (Except.ok.inj h).symm
      subst hH
      exact complete_graph_props n
    · rename_i hgt heq
      have hkn : k < n := by omega
      have hn0 : 0 < n := by omega
      simp only [Bind.bind, Except.bind] at h
      rcases hfold : List.foldlM
          (ws_rewire_step n rew pick fuel)
          (addEdgesFrom emptyGraph (latticePairs n k) none, 0)
          (latticePairs n k) with herr | out
      · rw [hfold] at h
        exact absurd h (by simp)
      · rw [hfold] at h
        simp only at h
        have hH : H = out.1 := (Except.ok.inj h).symm
        subst hH
        have hlat : ∀ p ∈ latticePairs n k,
            (0 ≤ p.1 ∧ p.1 < (n : Int)) ∧ (0 ≤ p.2 ∧ p.2 < (n : Int)) := by
          intro p hp
          obtain ⟨i, s, hi, h1, hs, rfl⟩ := mem_latticePairs hp
          have hmod : (i + s) % n < n := Nat.mod_lt _ hn0
          simp only [Int.ofNat_eq_coe]
          constructor <;> constructor <;> omega
        have hlatne : ∀ p ∈ latticePairs n k, p.1 ≠ p.2 := by
          intro p hp
          obtain ⟨i, s, hi, h1, hs, rfl⟩ := mem_latticePairs hp
          have hsn : s < n := by
            have : k / 2 ≤ k := Nat.div_le_self k 2
            omega
          have := ring_target_ne hi h1 hsn
          simp only [ne_eq, Int.ofNat_eq_coe]
          intro hc
          exact this (by exact_mod_cast hc.symm)
        have hg0 := addEdgesFrom_nodes_extend emptyGraph (latticePairs n k) none
        obtain ⟨app, happ, hemp, hkn0⟩ := hg0
        refine ws_rewire_fold_inv (latticePairs n k) _ 0 out
          (fun p hp => (hlat p hp).1)
          (noDupEdges_addEdgesFrom (show noDupEdges emptyGraph from List.Pairwise.nil) _ _)
          (noSelfLoops_addEdgesFrom (fun e he => absurd he (List.not_mem_nil e))
            hlatne _)
          (edgesUntagged_addEdgesFrom (fun e he => absurd he (List.not_mem_nil e)) _)
          (edgesInRange_addEdgesFrom (fun e he => absurd he (List.not_mem_nil e))
            hlat _)
          ?_ (hkn0 (show keysNodup emptyGraph from List.nodup_nil)) hfold
        intro pa hpa
        rw [happ] at hpa
        rcases List.mem_append.mp hpa with hh | hh
        · exact absurd hh (List.not_mem_nil pa)
        · exact hemp pa hh

/-! ## Claim C2: what the NPI topology regeneration actually does -/

set_option maxRecDepth 16000 in
/-- C2 (amended): applying an NPI whose override contains a D or epsilon
key merges the parameters and replaces the edge set with that of a
freshly built nx.watts_strogatz_graph over the current node count with
the merged D — not the builder used at initialization — and the new
edges carry no connection_type attribute; the node list, including every
node's status/days_with_disease record, is unchanged (for node sets of
the form range(n), which all builder outputs have). -/
theorem C2_theorem (p : Parameters) (np : NpiParameters) (g : NXGraph)
    (rew : Nat → Bool) (pick : Nat → Nat) (fuel : Nat)
    (p' : Parameters) (g' : NXGraph)
    (htopo : np.D.isSome ∨ np.epsilon.isSome)
    (hrange : g.nodes.map Prod.fst = intRange g.nodes.length)
    (happ : apply_NPI p np g rew pick fuel = Except.ok (p', g')) :
    p' = merge_parameters p np
    ∧ g'.nodes = g.nodes
    ∧ ∃ H, watts_strogatz_graph g.nodes.length (merge_parameters p np).D rew
          pick fuel = Except.ok H
        ∧ g'.edges = H.edges ∧ edgesUntagged g' := by
  unfold apply_NPI at happ
  rw [if_pos htopo] at happ
  rcases hm : make_structural_changes (merge_parameters p np) g rew pick fuel with
    herr | gm
  · rw [hm] at happ
    exact absurd happ (by simp [Except.map])
  · rw [hm] at happ
    simp only [Except.map] at happ
    have hpair := Except.ok.inj happ
    have hp' : p' = merge_parameters p np := (congrArg Prod.fst hpair).symm
    have hg' : g' = gm := (congrArg Prod.snd hpair).symm
    subst hg'
    unfold make_structural_changes at hm
    rcases hws : watts_strogatz_graph (numberOfNodes g) (merge_parameters p np).D
        rew pick fuel with herr | H
    · rw [hws] at hm
      exact absurd hm (by simp [Bind.bind, Except.bind])
    · rw [hws] at hm
      simp only [Bind.bind, Except.bind] at hm
      have hgm : g' = addEdgesFrom (removeAllEdges g)
          (H.edges.map (fun e => (e.u, e.v))) none := (Except.ok.inj hm).symm
      obtain ⟨hnd, hsl, hut, hir, _, _⟩ := ws_graph_props hws
      have hnn : numberOfNodes g = g.nodes.length := rfl
      have hnodes : g'.nodes = g.nodes := by
        have hmem : ∀ e ∈ H.edges.map (fun e => (e.u, e.v)),
            hasNode (removeAllEdges g) e.1 ∧ hasNode (removeAllEdges g) e.2 := by
          intro e he
          obtain ⟨f, hf, hfe⟩ := List.mem_map.mp he
          have hb := hir f hf
          rw [hnn] at hb
          have hmem1 : e.1 ∈ g.nodes.map Prod.fst := by
            rw [hrange, ← hfe]
            exact mem_intRange.mpr hb.1
          have hmem2 : e.2 ∈ g.nodes.map Prod.fst := by
            rw [hrange, ← hfe]
            exact mem_intRange.mpr hb.2
          constructor
          · obtain ⟨pa, hpa, hpe⟩ := List.mem_map.mp hmem1
            exact ⟨pa, hpa, hpe⟩
          · obtain ⟨pa, hpa, hpe⟩ := List.mem_map.mp hmem2
            exact ⟨pa, hpa, hpe⟩
        rw [hgm, addEdgesFrom_nodes_of_hasNode hmem none]
        rfl
      have hedges : g'.edges = H.edges := by
        rw [hgm]
        rw [addEdgesFrom_edges_fresh ?hg ?hes none]
        case hg =>
          intro e he
          exact absurd he (List.not_mem_nil e)
        case hes =>
          rw [List.pairwise_map]
          refine hnd.imp_of_mem ?_
          intro e f he hf hne hm2
          exact hne ((edgeMatches_flip none).mpr hm2)
        show (removeAllEdges g).edges ++ _ = H.edges
        have : (removeAllEdges g).edges = [] := rfl
        rw [this, List.nil_append, List.map_map]
        refine Eq.trans (List.map_congr_left ?_) (List.map_id H.edges)
        intro e he
        have hct := hut e he
        cases e with
        | mk u v ct =>
            cases hct
            rfl
      refine ⟨hp', hnodes, H, by rw [← hnn]; exact hws, hedges, ?_⟩
      intro e he
      rw [hedges] at he
      exact hut e he

set_option maxRecDepth 16000 in
theorem C2_witness :
    apply_NPI c2Parameters c2Npi c2InitGraph (fun _ => false) (fun _ => 0) 0 =
      Except.ok (merge_parameters c2Parameters c2Npi, c2RingGraph)
    ∧ c2RingGraph.nodes = c2InitGraph.nodes
    ∧ ∃ H, watts_strogatz_graph c2InitGraph.nodes.length
          (merge_parameters c2Parameters c2Npi).D (fun _ => false) (fun _ => 0) 0
          = Except.ok H
        ∧ c2RingGraph.edges = H.edges ∧ edgesUntagged c2RingGraph := by
  have h := C2_theorem c2Parameters c2Npi c2InitGraph (fun _ => false) (fun _ => 0)
    0 (merge_parameters c2Parameters c2Npi) c2RingGraph (Or.inl rfl) (by decide)
    (by decide)
  exact ⟨by decide, h.2.1, h.2.2⟩

/-! ## Helper lemmas: the clique builder -/

theorem create_edges_clique_ne (cur : Int) (ns : List Int) :
    ∀ p ∈ CliqueGen.create_edges cur ns, p.1 ≠ p.2 := by
  intro p hp
  unfold CliqueGen.create_edges at hp
  obtain ⟨x, _, hpx⟩ := List.mem_flatMap.mp hp
  obtain ⟨y, hy, hpy⟩ := List.mem_map.mp hpx
  have hyx := List.of_mem_filter hy
  subst hpy
  simp only [ne_eq, decide_eq_true_eq] at hyx ⊢
  intro hc
  exact hyx hc.symm

theorem noDupEdges_set_edge_attributes {g : NXGraph} (h : noDupEdges g)
    (ct : CType) : noDupEdges (set_edge_attributes g ct) := by
  unfold noDupEdges at h ⊢
  unfold set_edge_attributes
  rw [List.pairwise_map]
  exact h.imp_of_mem (fun _ _ hne => hne)

theorem noSelfLoops_set_edge_attributes {g : NXGraph} (h : noSelfLoops g)
    (ct : CType) : noSelfLoops (set_edge_attributes g ct) := by
  intro e he
  obtain ⟨f, hf, hfe⟩ := List.mem_map.mp he
  subst hfe
  exact h f hf

theorem add_cliques_go_inv (newNodes : List Int) :
    ∀ (hs : List (Nat × Nat)) (a : Int) (g : NXGraph),
    noDupEdges g → noSelfLoops g →
    noDupEdges (CliqueGen.add_cliques_go newNodes hs a g) ∧
      noSelfLoops (CliqueGen.add_cliques_go newNodes hs a g)
  | [], _, g, h1, h2 => ⟨h1, h2⟩
  | (i, size) :: rest, a, g, h1, h2 => by
      unfold CliqueGen.add_cliques_go
      split
      · exact add_cliques_go_inv newNodes rest a g h1 h2
      · exact add_cliques_go_inv newNodes rest _ _
          (noDupEdges_addEdgesFrom h1 _ _)
          (noSelfLoops_addEdgesFrom h2 (create_edges_clique_ne _ _) _)

theorem add_cliques_inv {g : NXGraph} (h1 : noDupEdges g) (h2 : noSelfLoops g)
    (dist : List Nat) :
    noDupEdges (CliqueGen.add_cliques_to_network g dist) ∧
      noSelfLoops (CliqueGen.add_cliques_to_network g dist) := by
  unfold CliqueGen.add_cliques_to_network
  refine add_cliques_go_inv _ _ _ _ ?_ ?_
  · unfold noDupEdges
    rw [foldl_addNode_edges]
    exact h1
  · intro e he
    rw [foldl_addNode_edges] at he
    exact h2 e he

/-! ## Helper lemmas: the Poisson builder -/

theorem sortPair_ne {a b : Int} (h : a ≠ b) :
    (PoissonGen.sortPair a b).1 ≠ (PoissonGen.sortPair a b).2 := by
  unfold PoissonGen.sortPair
  split
  · exact h
  · exact h.symm

theorem nearest_neighbors_ne {node cons n : Nat} (hc : cons + 2 ≤ 2 * n) :
    ∀ pr ∈ PoissonGen.get_nearest_neighbors_connections node cons n,
      pr.1 ≠ pr.2 := by
  intro pr hpr
  unfold PoissonGen.get_nearest_neighbors_connections at hpr
  obtain ⟨nb, hnb, hpr2⟩ := List.mem_map.mp hpr
  subst hpr2
  refine sortPair_ne ?_
  rcases List.mem_append.mp hnb with hh | hh
  · obtain ⟨t, ht, hnb2⟩ := List.mem_map.mp hh
    have ht2 := List.mem_range.mp ht
    subst hnb2
    unfold PoissonGen.adjR
    intro hceq
    split at hceq <;> omega
  · obtain ⟨t, ht, hnb2⟩ := List.mem_map.mp hh
    have ht2 := List.mem_range.mp ht
    subst hnb2
    unfold PoissonGen.adjL
    intro hceq
    split at hceq <;> omega

theorem nearest_neighbors_range {node cons n : Nat} (hnode : node < n)
    (hc : cons + 2 ≤ 2 * n) :
    ∀ pr ∈ PoissonGen.get_nearest_neighbors_connections node cons n,
      (0 ≤ pr.1 ∧ pr.1 < (n : Int)) ∧ (0 ≤ pr.2 ∧ pr.2 < (n : Int)) := by
  intro pr hpr
  unfold PoissonGen.get_nearest_neighbors_connections at hpr
  obtain ⟨nb, hnb, hpr2⟩ := List.mem_map.mp hpr
  subst hpr2
  have hnode' : (0 : Int) ≤ (node : Int) ∧ (node : Int) < (n : Int) := by omega
  have hnb' : (0 : Int) ≤ nb ∧ nb < (n : Int) := by
    rcases List.mem_append.mp hnb with hh | hh
    · obtain ⟨t, ht, hnb2⟩ := List.mem_map.mp hh
      have ht2 := List.mem_range.mp ht
      subst hnb2
      unfold PoissonGen.adjR
      split <;> omega
    · obtain ⟨t, ht, hnb2⟩ := List.mem_map.mp hh
      have ht2 := List.mem_range.mp ht
      subst hnb2
      unfold PoissonGen.adjL
      split <;> omega
  unfold PoissonGen.sortPair
  split <;> exact ⟨by omega, by omega⟩

theorem mem_foldl_insertUniq {α : Type} [DecidableEq α] :
    ∀ (l acc : List α) (x : α), x ∈ l.foldl PoissonGen.insertUniq acc →
      x ∈ acc ∨ x ∈ l
  | [], acc, x, h => Or.inl h
  | a :: l, acc, x, h => by
      rw [List.foldl_cons] at h
      rcases mem_foldl_insertUniq l (PoissonGen.insertUniq acc a) x h with hh | hh
      · unfold PoissonGen.insertUniq at hh
        split at hh
        · exact Or.inl hh
        · rcases List.mem_append.mp hh with h2 | h2
          · exact Or.inl h2
          · simp only [List.mem_singleton] at h2
            rw [h2]
            exact Or.inr (List.mem_cons_self a l)
      · exact Or.inr (List.mem_cons_of_mem a hh)

theorem mem_dedupPairs {l : List (Int × Int)} {x : Int × Int}
    (h : x ∈ PoissonGen.dedupPairs l) : x ∈ l := by
  rcases mem_foldl_insertUniq l [] x h with hh | hh
  · exact absurd hh (List.not_mem_nil x)
  · exact hh

theorem mapME_ok_mem {α β : Type} {f : α → Except Err β} :
    ∀ {l : List α} {l' : List β}, mapME f l = .ok l' →
      ∀ y ∈ l', ∃ x ∈ l, f x = .ok y := by
  intro l
  induction l with
  | nil =>
      intro l' h y hy
      have : l' = [] := (Except.ok.inj h).symm
      subst this
      exact absurd hy (List.not_mem_nil y)
  | cons a l ih =>
      intro l' h y hy
      unfold mapME at h
      rcases ha : f a with herr | b
      · rw [ha] at h
        exact absurd h (by simp [Bind.bind, Except.bind])
      · rw [ha] at h
        simp only [Bind.bind, Except.bind] at h
        rcases hl : mapME f l with herr | bs
        · rw [hl] at h
          exact absurd h (by simp)
        · rw [hl] at h
          simp only at h
          have : b :: bs = l' := Except.ok.inj h
          subst this
          rcases List.mem_cons.mp hy with hh | hh
          · exact ⟨a, List.mem_cons_self a l, hh ▸ ha⟩
          · obtain ⟨x, hx, hfx⟩ := ih hl y hh
            exact ⟨x, List.mem_cons_of_mem a hx, hfx⟩

theorem rewire_connection_cases {e : Int × Int} {n : Nat} {b : Bool} {pk : Nat}
    {e' : Int × Int}
    (h : PoissonGen.rewire_connection e n b pk = .ok e') :
    e' = e ∨ (e'.1 = e.1 ∧ e'.2 ≠ e.1 ∧ e'.2 ∈ intRange n) := by
  unfold PoissonGen.rewire_connection at h
  split at h
  · rcases hr : PoissonGen.listRemove (intRange n) e.1 with herr | nodes
    · rw [hr] at h
      exact absurd h (by simp [Bind.bind, Except.bind])
    · rw [hr] at h
      simp only [Bind.bind, Except.bind] at h
      rcases hc : choiceE nodes pk with herr | w
      · rw [hc] at h
        exact absurd h (by simp)
      · rw [hc] at h
        simp only at h
        have he' : (e.1, w) = e' := Except.ok.inj h
        have hnodes : nodes = (intRange n).erase e.1 := by
          unfold PoissonGen.listRemove at hr
          split at hr
          · exact (Except.ok.inj hr).symm
          · exact absurd hr (by simp)
        have hw := choiceE_mem hc
        rw [hnodes] at hw
        have hw2 := (List.Nodup.mem_erase_iff (intRange_nodup n)).mp hw
        refine Or.inr ?_
        rw [← he']
        exact ⟨rfl, hw2.1, hw2.2⟩
  · exact Or.inl (Except.ok.inj h).symm

/-- Every edge returned by the Poisson __create_edges has distinct
endpoints when every degree draw c satisfies c + 2 <= 2n, and both
endpoints lie in [0, n) when additionally the draw list has length n. -/
theorem create_edges_shape {p : ℚ} {n : Nat} {draws : List Nat}
    {rew : Nat → Bool} {pick : Nat → Nat} {es : List (Int × Int)}
    (hc : ∀ c ∈ draws, c + 2 ≤ 2 * n)
    (h : PoissonGen.create_edges p n draws rew pick = .ok es) :
    (∀ pr ∈ es, pr.1 ≠ pr.2) ∧
    (draws.length = n →
      ∀ pr ∈ es, (0 ≤ pr.1 ∧ pr.1 < (n : Int)) ∧ (0 ≤ pr.2 ∧ pr.2 < (n : Int))) := by
  unfold PoissonGen.create_edges at h
  split at h
  · exact absurd h (by simp)
  · have hflat : ∀ pr ∈ PoissonGen.dedupPairs (draws.enum.flatMap
        (fun nc => PoissonGen.get_nearest_neighbors_connections nc.1 nc.2 n)),
        pr.1 ≠ pr.2 ∧ (draws.length = n →
          (0 ≤ pr.1 ∧ pr.1 < (n : Int)) ∧ (0 ≤ pr.2 ∧ pr.2 < (n : Int))) := by
      intro pr hpr
      have hpr2 := mem_dedupPairs hpr
      obtain ⟨nc, hnc, hprm⟩ := List.mem_flatMap.mp hpr2
      have hcn : nc.2 + 2 ≤ 2 * n := hc nc.2 (List.snd_mem_of_mem_enum hnc)
      refine ⟨nearest_neighbors_ne hcn pr hprm, fun hlen => ?_⟩
      have hfst : nc.1 < n := by
        rw [← hlen]
        exact List.fst_lt_of_mem_enum hnc
      exact nearest_neighbors_range hfst hcn pr hprm
    split at h
    · constructor
      · intro pr hpr
        obtain ⟨x, hx, hfx⟩ := mapME_ok_mem h pr hpr
        have hx2 := List.snd_mem_of_mem_enum hx
        rcases rewire_connection_cases hfx with hh | ⟨h1, h2, h3⟩
        · subst hh
          exact (hflat x.2 hx2).1
        · intro hcc
          rw [hcc] at h1
          exact h2 h1
      · intro hlen pr hpr
        obtain ⟨x, hx, hfx⟩ := mapME_ok_mem h pr hpr
        have hx2 := List.snd_mem_of_mem_enum hx
        have hb := (hflat x.2 hx2).2 hlen
        rcases rewire_connection_cases hfx with hh | ⟨h1, h2, h3⟩
        · subst hh
          exact hb
        · have h3' := mem_intRange.mp h3
          rw [h1]
          exact ⟨hb.1, h3'⟩
    · have : es = PoissonGen.dedupPairs _ := (Except.ok.inj h).symm
      subst this
      exact ⟨fun pr hpr => (hflat pr hpr).1,
        fun hlen pr hpr => (hflat pr hpr).2 hlen⟩

/-! ## Claims C5 and C8: builder edge-set and node-set guarantees -/

/-- C5 (amended): every graph produced by the household clique builder
has no self-loops and no duplicate unordered pairs, for any input shape,
degree, rewiring outcome and fuel; a Poisson builder graph (build or
update mode) has no duplicate unordered pairs, and no self-loops provided
every drawn degree c satisfies c + 2 <= 2n (ceil(c/2) < n), the regime in
which the single ring wraparound cannot map a neighbor offset back onto
its own node.  (Duplicate-freedom is enforced by the networkx edge
dictionary in both builders.) -/
theorem C5_theorem :
    (∀ (inp : GraphInput) (k : Nat) (rew : Nat → Bool) (pick : Nat → Nat)
        (fuel : Nat) (g : NXGraph),
        watts_strogatz_clique_graph inp k rew pick fuel = Except.ok g →
        noSelfLoops g ∧ noDupEdges g)
    ∧ (∀ (n D : Nat) (p : ℚ) (gOpt : Option NXGraph) (draws : List Nat)
        (rew : Nat → Bool) (pick : Nat → Nat) (g : NXGraph),
        (∀ c ∈ draws, c + 2 ≤ 2 * n) →
        PoissonGen.poisson_small_world_graph n D p gOpt draws rew pick =
          Except.ok g →
        noSelfLoops g ∧ noDupEdges g) := by
  constructor
  · intro inp k rew pick fuel g h
    cases inp with
    | dist hs =>
        simp only [watts_strogatz_clique_graph] at h
        rcases hws : watts_strogatz_graph hs.length k rew pick fuel with herr | H
        · rw [hws] at h
          exact absurd h (by simp [Bind.bind, Except.bind])
        · rw [hws] at h
          simp only [Bind.bind, Except.bind] at h
          have hg : g = CliqueGen.add_cliques_to_network
              (set_edge_attributes H CType.inter) hs := (Except.ok.inj h).symm
          subst hg
          obtain ⟨hnd, hsl, _, _, _, _⟩ := ws_graph_props hws
          have := add_cliques_inv (noDupEdges_set_edge_attributes hnd CType.inter)
            (noSelfLoops_set_edge_attributes hsl CType.inter) hs
          exact ⟨this.2, this.1⟩
    | count n =>
        simp only [watts_strogatz_clique_graph] at h
        rcases hws : watts_strogatz_graph n k rew pick fuel with herr | H
        · rw [hws] at h
          exact absurd h (by simp [Bind.bind, Except.bind])
        · rw [hws] at h
          simp only [Bind.bind, Except.bind] at h
          have hg : g = set_edge_attributes H CType.inter := (Except.ok.inj h).symm
          subst hg
          obtain ⟨hnd, hsl, _, _, _, _⟩ := ws_graph_props hws
          exact ⟨noSelfLoops_set_edge_attributes hsl CType.inter,
            noDupEdges_set_edge_attributes hnd CType.inter⟩
  · intro n D p gOpt draws rew pick g hc h
    unfold PoissonGen.poisson_small_world_graph at h
    rcases hce : PoissonGen.create_edges p n draws rew pick with herr | es
    · rw [hce] at h
      exact absurd h (by simp [Bind.bind, Except.bind])
    · rw [hce] at h
      simp only [Bind.bind, Except.bind] at h
      rw [← Except.ok.inj h]
      have hne := (create_edges_shape hc hce).1
      have key : ∀ G : NXGraph, G.edges = [] →
          noSelfLoops (addEdgesFrom G es none) ∧
            noDupEdges (addEdgesFrom G es none) := by
        intro G hbe
        constructor
        · refine noSelfLoops_addEdgesFrom ?_ hne none
          intro e he
          rw [hbe] at he
          exact absurd he (List.not_mem_nil e)
        · refine noDupEdges_addEdgesFrom ?_ es none
          unfold noDupEdges
          rw [hbe]
          exact List.Pairwise.nil
      refine key _ ?_
      rcases gOpt with _ | g0
      · exact foldl_addNode_edges emptyGraph (intRange n)
      · dsimp only
        split
        · rfl
        · exact foldl_addNode_edges emptyGraph (intRange n)

set_option maxRecDepth 16000 in
theorem C5_witness :
    (watts_strogatz_clique_graph (GraphInput.dist [5]) 1 (fun _ => true)
        (fun _ => 1) 1 = Except.ok c7K5 ∧ noSelfLoops c7K5 ∧ noDupEdges c7K5)
    ∧ (PoissonGen.poisson_small_world_graph 3 6 0 none [2, 2, 2]
        (fun _ => true) (fun _ => 1) = Except.ok triangleGraph
        ∧ noSelfLoops triangleGraph ∧ noDupEdges triangleGraph) := by
  have h1 := C5_theorem.1 (GraphInput.dist [5]) 1 (fun _ => true) (fun _ => 1) 1
    c7K5 (by decide)
  have h2 := C5_theorem.2 3 6 0 none [2, 2, 2] (fun _ => true) (fun _ => 1)
    triangleGraph (by decide) (by decide)
  exact ⟨⟨by decide, h1⟩, ⟨by decide, h2⟩⟩

theorem intRange_length (n : Nat) : (intRange n).length = n := by
  unfold intRange
  rw [List.length_map, List.length_range]

/-- C8 (amended): update mode on a graph with node set range(n), called
with that same n, with every drawn degree c bounded by c + 2 <= 2n,
returns the input's node list unchanged — identifiers and node attribute
records alike — and its edge set is exactly the one build mode creates
from the same draws and streams (all prior edges discarded). -/
theorem C8_theorem (n D : Nat) (p : ℚ) (g0 : NXGraph) (draws : List Nat)
    (rew : Nat → Bool) (pick : Nat → Nat) (g' : NXGraph)
    (hrange : g0.nodes.map Prod.fst = intRange n)
    (hlen : draws.length = n)
    (hc : ∀ c ∈ draws, c + 2 ≤ 2 * n)
    (h : PoissonGen.poisson_small_world_graph n D p (some g0) draws rew pick =
      Except.ok g') :
    g'.nodes = g0.nodes
    ∧ ∃ gB, PoissonGen.poisson_small_world_graph n D p none draws rew pick =
        Except.ok gB ∧ g'.edges = gB.edges := by
  have hlen0 : g0.nodes.length = n := by
    have := congrArg List.length hrange
    rw [List.length_map, intRange_length] at this
    exact this
  unfold PoissonGen.poisson_small_world_graph at h ⊢
  rcases hce : PoissonGen.create_edges p n draws rew pick with herr | es
  · rw [hce] at h
    exact absurd h (by simp [Bind.bind, Except.bind])
  · rw [hce] at h
    simp only [Bind.bind, Except.bind] at h ⊢
    rcases Nat.eq_zero_or_pos n with hn0 | hn0
    · subst hn0
      have hd : draws = [] := List.length_eq_zero.mp hlen
      subst hd
      have hes : es = [] := by
        have := hce
        unfold PoissonGen.create_edges at this
        split at this
        · exact absurd this (by simp)
        · split at this
          · have h0 := mapME_ok_mem this
            rcases es with _ | ⟨e, es⟩
            · rfl
            · obtain ⟨x, hx, _⟩ := h0 e (List.mem_cons_self e es)
              exact absurd hx (List.not_mem_nil x)
          · have : es = PoissonGen.dedupPairs _ := (Except.ok.inj this).symm
            rw [this]
            rfl
      subst hes
      have hg0e : g0.nodes = [] := List.length_eq_zero.mp hlen0
      have hfalse : ¬ g0.nodes.length > 0 := by omega
      rw [if_neg hfalse] at h
      have hg' : g' = addEdgesFrom ((intRange 0).foldl addNode emptyGraph) [] none :=
        (Except.ok.inj h).symm
      refine ⟨?_, addEdgesFrom emptyGraph [] none, rfl, ?_⟩
      · rw [hg', hg0e]
        rfl
      · rw [hg']
        rfl
    · have htrue : g0.nodes.length > 0 := by omega
      rw [if_pos htrue] at h
      have hg' : g' = addEdgesFrom (removeAllEdges g0) es none :=
        (Except.ok.inj h).symm
      have hesr := (create_edges_shape hc hce).2 hlen
      have hmem : ∀ e ∈ es, hasNode (removeAllEdges g0) e.1 ∧
          hasNode (removeAllEdges g0) e.2 := by
        intro e he
        have hb := hesr e he
        have hmem1 : e.1 ∈ g0.nodes.map Prod.fst := by
          rw [hrange]
          exact mem_intRange.mpr hb.1
        have hmem2 : e.2 ∈ g0.nodes.map Prod.fst := by
          rw [hrange]
          exact mem_intRange.mpr hb.2
        constructor
        · obtain ⟨pa, hpa, hpe⟩ := List.mem_map.mp hmem1
          exact ⟨pa, hpa, hpe⟩
        · obtain ⟨pa, hpa, hpe⟩ := List.mem_map.mp hmem2
          exact ⟨pa, hpa, hpe⟩
      refine ⟨?_, addEdgesFrom ((intRange n).foldl addNode emptyGraph) es none,
        rfl, ?_⟩
      · rw [hg', addEdgesFrom_nodes_of_hasNode hmem none]
        rfl
      · rw [hg']
        refine addEdgesFrom_edges_congr ?_ es none
        rw [foldl_addNode_edges]
        rfl

set_option maxRecDepth 16000 in
theorem C8_witness :
    PoissonGen.poisson_small_world_graph 3 6 0
        (some ((intRange 3).foldl addNode emptyGraph)) [2, 2, 2]
        (fun _ => true) (fun _ => 1) = Except.ok triangleGraph
    ∧ triangleGraph.nodes = ((intRange 3).foldl addNode emptyGraph).nodes
    ∧ ∃ gB, PoissonGen.poisson_small_world_graph 3 6 0 none [2, 2, 2]
        (fun _ => true) (fun _ => 1) = Except.ok gB
        ∧ triangleGraph.edges = gB.edges := by
  have h := C8_theorem 3 6 0 ((intRange 3).foldl addNode emptyGraph) [2, 2, 2]
    (fun _ => true) (fun _ => 1) triangleGraph (by decide) (by decide) (by decide)
    (by decide)
  exact ⟨by decide, h.1, h.2⟩

/-! ## Helper lemmas: node attribute updates -/

theorem upd_map_id (b : NodeAttrs) :
    ∀ (l : List (Int × NodeAttrs)) (v : Int), v ∉ l.map Prod.fst →
      l.map (fun pa => if pa.1 = v then (pa.1, b) else pa) = l
  | [], _, _ => rfl
  | pa :: l, v, h => by
      have hne : pa.1 ≠ v := fun hc =>
        h (hc ▸ List.mem_map_of_mem Prod.fst (List.mem_cons_self pa l))
      rw [List.map_cons, if_neg hne,
        upd_map_id b l v (fun hc => h (List.mem_cons_of_mem _ hc))]

theorem countP_upd (q : Int × NodeAttrs → Bool) (b : NodeAttrs) :
    ∀ (l : List (Int × NodeAttrs)) (v : Int) (a : NodeAttrs),
    (l.map Prod.fst).Nodup → (v, a) ∈ l →
    (l.map (fun pa => if pa.1 = v then (pa.1, b) else pa)).countP q +
        (if q (v, a) then 1 else 0) =
      l.countP q + (if q (v, b) then 1 else 0)
  | [], v, a, _, hmem => absurd hmem (List.not_mem_nil _)
  | pa :: l, v, a, hnd, hmem => by
      rw [List.map_cons] at hnd ⊢
      have hnd2 := List.nodup_cons.mp hnd
      by_cases hv : pa.1 = v
      · have hva : pa = (v, a) := by
          rcases List.mem_cons.mp hmem with hh | hh
          · exact hh.symm
          · exact absurd (hv ▸ List.mem_map_of_mem Prod.fst hh) hnd2.1
        have hrest : l.map (fun pa => if pa.1 = v then (pa.1, b) else pa) = l :=
          upd_map_id b l v (hv ▸ hnd2.1)
        rw [if_pos hv, hrest, List.countP_cons, List.countP_cons, hva]
        simp only
        omega
      · have hmem2 : (v, a) ∈ l := by
          rcases List.mem_cons.mp hmem with hh | hh
          · exact absurd (congrArg Prod.fst hh.symm) hv
          · exact hh
        rw [if_neg hv, List.countP_cons, List.countP_cons]
        have := countP_upd q b l v a hnd2.2 hmem2
        omega

theorem find?_map_upd (v w : Int) (b : NodeAttrs) :
    ∀ l : List (Int × NodeAttrs),
    (l.map (fun pa => if pa.1 = w then (pa.1, b) else pa)).find?
        (fun pa => pa.1 = v) =
      if v = w then
        (l.find? (fun pa => pa.1 = v)).map (fun pa => (pa.1, b))
      else l.find? (fun pa => pa.1 = v)
  | [] => by by_cases h : v = w <;> simp [h]
  | pa :: l => by
      rw [List.map_cons]
      by_cases hw : pa.1 = w
      · rw [if_pos hw]
        by_cases hv : pa.1 = v
        · have hvw : v = w := hv ▸ hw
          rw [if_pos hvw]
          rw [List.find?_cons_of_pos _ (by simpa using hv),
            List.find?_cons_of_pos _ (by simpa using hv)]
          simp
        · rw [List.find?_cons_of_neg _ (by simpa using hv),
            List.find?_cons_of_neg _ (by simpa using hv)]
          exact find?_map_upd v w b l
      · rw [if_neg hw]
        by_cases hv : pa.1 = v
        · have hvw : ¬ v = w := fun hc => hw (hv.trans hc)
          rw [if_neg hvw, List.find?_cons_of_pos _ (by simpa using hv),
            List.find?_cons_of_pos _ (by simpa using hv)]
        · rw [List.find?_cons_of_neg _ (by simpa using hv),
            List.find?_cons_of_neg _ (by simpa using hv)]
          exact find?_map_upd v w b l

theorem lookupAttrs_setNodeInfected (g : NXGraph) (v w : Int) :
    lookupAttrs (setNodeInfected g w) v =
      if v = w then
        (lookupAttrs g v).map (fun _ => ⟨some Status.infected, some 1⟩)
      else lookupAttrs g v := by
  unfold lookupAttrs setNodeInfected
  rw [find?_map_upd v w ⟨some Status.infected, some 1⟩ g.nodes]
  by_cases h : v = w
  · rw [if_pos h, if_pos h, Option.map_map, Option.map_map]
    rfl
  · rw [if_neg h, if_neg h]

theorem statusAttr_setNodeInfected_other {g : NXGraph} {v w : Int} (h : v ≠ w) :
    statusAttr (setNodeInfected g w) v = statusAttr g v := by
  unfold statusAttr
  rw [lookupAttrs_setNodeInfected, if_neg h]

theorem statusAttr_setNodeInfected_self {g : NXGraph} {v : Int} {a : NodeAttrs}
    (h : lookupAttrs g v = some a) :
    statusAttr (setNodeInfected g v) v = some Status.infected := by
  unfold statusAttr
  rw [lookupAttrs_setNodeInfected, if_pos rfl, h]
  rfl

theorem keys_setNodeInfected (g : NXGraph) (v : Int) :
    (setNodeInfected g v).nodes.map Prod.fst = g.nodes.map Prod.fst := by
  unfold setNodeInfected
  rw [List.map_map]
  refine List.map_congr_left ?_
  intro pa _
  by_cases h : pa.1 = v <;> simp [Function.comp, h]

theorem setNodeInfected_edges (g : NXGraph) (v : Int) :
    (setNodeInfected g v).edges = g.edges := rfl

theorem WF_setNodeInfected {g : NXGraph} (h : WF g) (v : Int) :
    WF (setNodeInfected g v) := by
  intro pa hpa
  obtain ⟨pb, hpb, hpe⟩ := List.mem_map.mp hpa
  by_cases hv : pb.1 = v
  · rw [if_pos hv] at hpe
    rw [← hpe]
    exact ⟨fun _ => ⟨1, rfl, le_refl 1⟩, fun hc => absurd rfl hc⟩
  · rw [if_neg hv] at hpe
    rw [← hpe]
    exact h pb hpb

theorem lookup_mem {g : NXGraph} {v : Int} {a : NodeAttrs}
    (h : lookupAttrs g v = some a) : (v, a) ∈ g.nodes := by
  unfold lookupAttrs at h
  rcases hf : g.nodes.find? (fun pa => pa.1 = v) with _ | pa
  · rw [hf] at h
    exact absurd h (by simp)
  · rw [hf] at h
    have hmem := List.mem_of_find?_eq_some hf
    have hkey : pa.1 = v := by simpa using List.find?_some hf
    have ha : pa.2 = a := by simpa using h
    have : pa = (v, a) := Prod.ext hkey ha
    rw [← this]
    exact hmem

/-! ## Helper lemmas: update_disease_progress -/

theorem progress_entry_rel {d : ℚ} {pa pb : Int × NodeAttrs}
    (h : (match pa.2.status with
      | none => Except.error Err.keyError
      | some s =>
          if s = Status.infected then
            (parse_attr d pa.2).map (fun a' => (pa.1, a'))
          else Except.ok pa) = Except.ok pb) :
    pa.1 = pb.1 ∧ progressRel d pa.2 pb.2 := by
  obtain ⟨x, st, days⟩ := pa
  cases st with
  | none => exact absurd h (by simp)
  | some s =>
      dsimp only at h
      by_cases hs : s = Status.infected
      · rw [if_pos hs] at h
        unfold parse_attr at h
        cases days with
        | none => exact absurd h (by simp [Except.map])
        | some k =>
            dsimp only at h
            by_cases hk : (k : ℚ) ≥ d
            · rw [if_pos hk] at h
              simp only [Except.map] at h
              have hpb := Except.ok.inj h
              subst hpb
              exact ⟨rfl, Or.inr ⟨by rw [hs], k, rfl, Or.inl ⟨hk, rfl⟩⟩⟩
            · rw [if_neg hk] at h
              simp only [Except.map] at h
              have hpb := Except.ok.inj h
              subst hpb
              exact ⟨rfl, Or.inr ⟨by rw [hs], k, rfl, Or.inr ⟨hk, by rw [hs]⟩⟩⟩
      · rw [if_neg hs] at h
        have hpb := Except.ok.inj h
        subst hpb
        exact ⟨rfl, Or.inl ⟨s, rfl, hs, rfl⟩⟩

theorem mapME_progress {d : ℚ} :
    ∀ {l l' : List (Int × NodeAttrs)},
    mapME (fun pa => match pa.2.status with
      | none => Except.error Err.keyError
      | some s =>
          if s = Status.infected then
            (parse_attr d pa.2).map (fun a' => (pa.1, a'))
          else Except.ok pa) l = .ok l' →
    List.Forall₂ (fun pa pb => pa.1 = pb.1 ∧ progressRel d pa.2 pb.2) l l' := by
  intro l
  induction l with
  | nil =>
      intro l' h
      have : l' = [] := (Except.ok.inj h).symm
      rw [this]
      exact List.Forall₂.nil
  | cons pa l ih =>
      intro l' h
      unfold mapME at h
      rcases ha : (match pa.2.status with
        | none => Except.error Err.keyError
        | some s =>
            if s = Status.infected then
              (parse_attr d pa.2).map (fun a' => (pa.1, a'))
            else Except.ok pa) with herr | pb
      · rw [ha] at h
        exact absurd h (by simp [Bind.bind, Except.bind])
      · rw [ha] at h
        simp only [Bind.bind, Except.bind] at h
        rcases hl : mapME _ l with herr | bs
        · rw [hl] at h
          exact absurd h (by simp)
        · rw [hl] at h
          simp only at h
          have : pb :: bs = l' := Except.ok.inj h
          rw [← this]
          exact List.Forall₂.cons (progress_entry_rel ha) (ih hl)

theorem update_disease_progress_rel {d : ℚ} {g g' : NXGraph}
    (h : update_disease_progress d g = .ok g') :
    g'.edges = g.edges ∧
    List.Forall₂ (fun pa pb => pa.1 = pb.1 ∧ progressRel d pa.2 pb.2)
      g.nodes g'.nodes := by
  unfold update_disease_progress at h
  rcases hm : mapME (fun pa => match pa.2.status with
    | none => Except.error Err.keyError
    | some s =>
        if s = Status.infected then
          (parse_attr d pa.2).map (fun a' => (pa.1, a'))
        else Except.ok pa) g.nodes with herr | nodes'
  · rw [hm] at h
    exact absurd h (by simp [Bind.bind, Except.bind])
  · rw [hm] at h
    simp only [Bind.bind, Except.bind] at h
    have hg : { g with nodes := nodes' } = g' := Except.ok.inj h
    rw [← hg]
    exact ⟨rfl, mapME_progress hm⟩

theorem forall₂_keys {R : NodeAttrs → NodeAttrs → Prop} :
    ∀ {l l' : List (Int × NodeAttrs)},
    List.Forall₂ (fun pa pb => pa.1 = pb.1 ∧ R pa.2 pb.2) l l' →
    l.map Prod.fst = l'.map Prod.fst := by
  intro l l' h
  induction h with
  | nil => rfl
  | cons hab _ ih =>
      rw [List.map_cons, List.map_cons, hab.1, ih]

theorem forall₂_progress_newly {d : ℚ} :
    ∀ {l l' : List (Int × NodeAttrs)},
    List.Forall₂ (fun pa pb => pa.1 = pb.1 ∧ progressRel d pa.2 pb.2) l l' →
    (∀ pa ∈ l, WFattrs pa.2) →
    l'.countP newlyP = 0 := by
  intro l l' h
  induction h with
  | nil => intro; rfl
  | @cons pa pb l l' hab _ ih =>
      intro hwf
      rw [List.countP_cons]
      have hrest := ih (fun x hx => hwf x (List.mem_cons_of_mem pa hx))
      have hhead : newlyP pb = false := by
        have hwa := hwf pa (List.mem_cons_self pa l)
        rcases hab.2 with ⟨s, hst, hs, hba⟩ | ⟨hst, k, hd, hcase⟩
        · have hni : pa.2.status ≠ some Status.infected := by
            rw [hst]
            intro hc
            exact hs (Option.some.inj hc)
          have hdn : pa.2.days_with_disease = none := hwa.2 hni
          unfold newlyP
          rw [hba, hdn]
        · obtain ⟨k', hk', hk1⟩ := hwa.1 hst
          have hkk : k = k' := Option.some.inj (hd.symm.trans hk')
          rcases hcase with ⟨_, hb⟩ | ⟨_, hb⟩
          · unfold newlyP
            rw [hb]
          · unfold newlyP
            rw [hb]
            cases k with
            | zero => omega
            | succ k2 => rfl
      rw [hhead, hrest]
      rfl

theorem forall₂_progress_nonSusc {d : ℚ} :
    ∀ {l l' : List (Int × NodeAttrs)},
    List.Forall₂ (fun pa pb => pa.1 = pb.1 ∧ progressRel d pa.2 pb.2) l l' →
    l'.countP nonSuscP = l.countP nonSuscP := by
  intro l l' h
  induction h with
  | nil => rfl
  | @cons pa pb l l' hab _ ih =>
      rw [List.countP_cons, List.countP_cons, ih]
      have heq : nonSuscP pb = nonSuscP pa := by
        rcases hab.2 with ⟨s, hst, hs, hba⟩ | ⟨hst, k, hd, hcase⟩
        · unfold nonSuscP
          rw [hba]
        · rcases hcase with ⟨_, hb⟩ | ⟨_, hb⟩ <;>
            unfold nonSuscP <;> rw [hb, hst]
      rw [heq]

theorem forall₂_progress_WF {d : ℚ} :
    ∀ {l l' : List (Int × NodeAttrs)},
    List.Forall₂ (fun pa pb => pa.1 = pb.1 ∧ progressRel d pa.2 pb.2) l l' →
    (∀ pa ∈ l, WFattrs pa.2) →
    ∀ pb ∈ l', WFattrs pb.2 := by
  intro l l' h
  induction h with
  | nil => intro _ pb hpb; exact absurd hpb (List.not_mem_nil pb)
  | @cons pa pb l l' hab _ ih =>
      intro hwf pc hpc
      rcases List.mem_cons.mp hpc with hh | hh
      · subst hh
        rcases hab.2 with ⟨s, hst, hs, hba⟩ | ⟨hst, k, hd, hcase⟩
        · rw [hba]
          exact hwf pa (List.mem_cons_self pa l)
        · rcases hcase with ⟨_, hb⟩ | ⟨_, hb⟩ <;> rw [hb]
          · exact ⟨fun hc => absurd (Option.some.inj hc) (by decide),
              fun _ => rfl⟩
          · exact ⟨fun _ => ⟨k + 1, rfl, by omega⟩,
              fun hc => absurd rfl hc⟩
      · exact ih (fun x hx => hwf x (List.mem_cons_of_mem pa hx)) pc hh

theorem forall₂_progress_statusTrans {d : ℚ} :
    ∀ {l l' : List (Int × NodeAttrs)},
    List.Forall₂ (fun pa pb => pa.1 = pb.1 ∧ progressRel d pa.2 pb.2) l l' →
    ∀ (v : Int) (es es' : List Edge),
      statusTrans (statusAttr ⟨l, es⟩ v) (statusAttr ⟨l', es'⟩ v) := by
  intro l l' h
  induction h with
  | nil => intro v es es'; exact Or.inl rfl
  | @cons pa pb l l' hab _ ih =>
      intro v es es'
      unfold statusAttr lookupAttrs
      by_cases hv : pa.1 = v
      · rw [List.find?_cons_of_pos _ (by simpa using hv),
          List.find?_cons_of_pos _ (by simpa [← hab.1] using hv)]
        show statusTrans pa.2.status pb.2.status
        rcases hab.2 with ⟨s, hst, hs, hba⟩ | ⟨hst, k, hd, hcase⟩
        · rw [hba]
          exact Or.inl rfl
        · rcases hcase with ⟨_, hb⟩ | ⟨_, hb⟩ <;> rw [hb, hst]
          · exact Or.inr (Or.inr ⟨rfl, rfl⟩)
          · exact Or.inl rfl
      · rw [List.find?_cons_of_neg _ (by simpa using hv),
          List.find?_cons_of_neg _ (by simpa [← hab.1] using hv)]
        exact ih v es es'

/-! ## Claim C9: negative rewiring probability fails eagerly -/

/-- C9: for every node count, mean degree, degree draw and both build and
update mode, invoking the Poisson builder with a rewiring probability
p < 0 fails (raise ValueError in __create_edges, the spec's
ConfigurationError), before any graph is returned and before the draws
influence anything. -/
theorem C9_theorem (n D : Nat) (p : ℚ) (gOpt : Option NXGraph) (draws : List Nat)
    (rew : Nat → Bool) (pick : Nat → Nat) (hp : p < 0) :
    PoissonGen.poisson_small_world_graph n D p gOpt draws rew pick =
      Except.error Err.valueError := by
  simp [PoissonGen.poisson_small_world_graph, PoissonGen.create_edges, hp,
    Bind.bind, Except.bind]

theorem C9_witness :
    PoissonGen.poisson_small_world_graph 3 6 (-1) none [2, 2, 2]
      (fun _ => false) (fun _ => 0) = Except.error Err.valueError :=
  C9_theorem 3 6 (-1) none [2, 2, 2] (fun _ => false) (fun _ => 0) (by norm_num)

/-! ## Claim C10: construction requires a valid random state -/

/-- C10: constructing Epidemic_Network with the default random_state=None
raises (random.setstate(None) is a TypeError) before any network is built
or any day runs — the error is the same for every builder input, stream
and day budget — and a construction that succeeds was necessarily given a
valid previously-captured random-module state tuple. -/
theorem C10_theorem :
    (∀ (p : Parameters) (np : Option NpiParameters) (maxDays : Nat)
        (rand : Rand) (fuel : Nat),
        Epidemic_Network_init p np maxDays none rand fuel =
          Except.error Err.typeError)
    ∧ (∀ (p : Parameters) (np : Option NpiParameters) (maxDays : Nat)
        (rs : RandomState) (rand : Rand) (fuel : Nat) (y : Parameters × SimState),
        Epidemic_Network_init p np maxDays (some rs) rand fuel = Except.ok y →
        valid_random_state rs = true) := by
  constructor
  · intro p np maxDays rand fuel
    simp [Epidemic_Network_init, Epidemic_Network_setup, random_setstate,
      Bind.bind, Except.bind]
  · intro p np maxDays rs rand fuel y h
    by_contra hv
    simp [Epidemic_Network_init, Epidemic_Network_setup, random_setstate, hv,
      Bind.bind, Except.bind] at h

set_option maxRecDepth 16000 in
theorem C10_witness :
    Epidemic_Network_init tinyParameters none 0 none allTrue 0 =
        Except.error Err.typeError
    ∧ valid_random_state someRandomState = true :=
  ⟨C10_theorem.1 tinyParameters none 0 allTrue 0,
   C10_theorem.2 tinyParameters none 0 someRandomState allTrue 0 tinyResult
     (by decide)⟩

/-! ## Claim C7: the single-household build -/

set_option maxRecDepth 16000 in
/-- C7 (amended): the claim holds for k = 1 only.  For every rewiring
outcome stream and fuel, HouseholdCliqueBuilder.build([5], 1, p) returns
exactly the complete graph on 5 nodes: node set {0,...,4}, every one of
the 10 unordered pairs present, every edge tagged intra and none tagged
inter.  (For k >= 2 the call fails instead, see C7_counterexample; the
rewiring probability p enters only through the stream and is irrelevant
here because nx.watts_strogatz_graph(1, 1, p) returns the complete graph
on one node without drawing.) -/
theorem C7_theorem (rew : Nat → Bool) (pick : Nat → Nat) (fuel : Nat) :
    watts_strogatz_clique_graph (GraphInput.dist [5]) 1 rew pick fuel =
        Except.ok c7K5
    ∧ c7K5.nodes.map Prod.fst = intRange 5
    ∧ (∀ e ∈ c7K5.edges, e.ctype = some CType.intra)
    ∧ (∀ a b : Fin 5, a < b → hasEdgeP c7K5 (a.1 : Int) (b.1 : Int))
    ∧ (¬ ∃ e ∈ c7K5.edges, e.ctype = some CType.inter) :=
  ⟨rfl, by decide, by decide, by decide, by decide⟩

set_option maxRecDepth 16000 in
theorem C7_witness :
    watts_strogatz_clique_graph (GraphInput.dist [5]) 1 (fun _ => false)
        (fun _ => 0) 0 = Except.ok c7K5
    ∧ hasEdgeP c7K5 0 4 :=
  ⟨(C7_theorem (fun _ => false) (fun _ => 0) 0).1,
   (C7_theorem (fun _ => false) (fun _ => 0) 0).2.2.2.1
     ⟨0, by decide⟩ ⟨4, by decide⟩ (by decide)⟩

/-- C7 (counterexample): the claim fails for k = 2 (and any k >= 2): with
one household the Watts-Strogatz base call receives n = 1 and raises
NetworkXError (k > n), so build([5], 2, p) returns no graph at all. -/
theorem C7_counterexample :
    ¬ ∀ (k : Nat) (rew : Nat → Bool) (pick : Nat → Nat) (fuel : Nat),
        ∃ g, watts_strogatz_clique_graph (GraphInput.dist [5]) k rew pick fuel =
          Except.ok g := by
  intro h
  obtain ⟨g, hg⟩ := h 2 (fun _ => false) (fun _ => 0) 0
  rw [show watts_strogatz_clique_graph (GraphInput.dist [5]) 2 (fun _ => false)
      (fun _ => 0) 0 = Except.error Err.networkXError from rfl] at hg
  exact Except.noConfusion hg

/-! ## Claim C5 counterexample: a self-loop from a large degree draw -/

set_option maxRecDepth 16000 in
/-- C5 (counterexample): the no-self-loop claim is false for the Poisson
builder as universally stated over all drawn degrees.  At n = 3 with
degree draws [5, 0, 0] and p = 0 the nearest-neighbor wraparound
subtracts n only once, so node 0's third right neighbor 3 wraps to 0 and
the edge (0, 0) enters the graph. -/
theorem C5_counterexample :
    ¬ ∀ (n D : Nat) (p : ℚ) (gOpt : Option NXGraph) (draws : List Nat)
        (rew : Nat → Bool) (pick : Nat → Nat) (g : NXGraph),
        PoissonGen.poisson_small_world_graph n D p gOpt draws rew pick =
          Except.ok g →
        noSelfLoops g := by
  intro h
  have h2 := h 3 6 0 none [5, 0, 0] (fun _ => false) (fun _ => 0) c5Graph (by decide)
  exact absurd (h2 ⟨0, 0, none⟩ (by decide)) (by decide)

/-! ## Claim C8 counterexample: update mode can grow the node set -/

set_option maxRecDepth 16000 in
/-- C8 (counterexample): update mode does not always preserve the node
identifier set.  On a 3-node graph with degree draws [0, 0, 7] and p = 0,
node 2's right neighbors reach 6, which the single wraparound reduces
only to 3; adding the edge (2, 3) inserts the fresh node 3. -/
theorem C8_counterexample :
    ¬ ∀ (n D : Nat) (p : ℚ) (g0 : NXGraph) (draws : List Nat)
        (rew : Nat → Bool) (pick : Nat → Nat) (g' : NXGraph),
        PoissonGen.poisson_small_world_graph n D p (some g0) draws rew pick =
          Except.ok g' →
        g'.nodes.map Prod.fst = g0.nodes.map Prod.fst := by
  intro h
  have h2 := h 3 6 0 ((intRange 3).foldl addNode emptyGraph) [0, 0, 7]
    (fun _ => false) (fun _ => 0) c8Graph (by decide)
  exact absurd h2 (by decide)

/-! ## Claim C1 counterexample: last-day infections are never counted -/

set_option maxRecDepth 16000 in
/-- C1 (counterexample): the sum of get_daily_cases() can be strictly
smaller than the number of nodes that ever became infected.  Two nodes
joined by one inter edge, one seed, rate 1, duration 5, max_days = 1: the
seed is counted on day 1 and then infects its neighbor in day 1's
transmit step, after which the loop ends, so the sum is 1 while 2 nodes
ever became infected (both end non-susceptible; statuses only move
susceptible to infected to recovered, see C3, so nonSusc counts exactly
the ever-infected nodes). -/
theorem C1_counterexample :
    ¬ ∀ (p : Parameters) (np : Option NpiParameters) (maxDays : Nat)
        (rs : Option RandomState) (rand : Rand) (fuel : Nat)
        (y : Parameters × SimState),
        Epidemic_Network_init p np maxDays rs rand fuel = Except.ok y →
        (get_daily_cases y.2).sum = nonSusc y.2.g := by
  intro h
  have h2 := h cexParameters none 1 (some someRandomState) allTrue 0 c1Result
    (by decide)
  exact absurd h2 (by decide)

/-! ## Claim C2 counterexample: NPI does not reuse the initial builder -/

set_option maxRecDepth 16000 in
/-- C2 (counterexample): after an NPI with a D override, the regenerated
edge set is not the one the initialization builder (the household clique
builder) produces in update mode.  Concrete deterministic run (households
[3, 3], D = 2, epsilon = 0, i0 = 0, NPI at day 2 after max_days = 1):
the code's regeneration (a bare nx.watts_strogatz_graph ring over 6
nodes) contains the untagged edge (1, 2), while the clique builder's
output for the merged parameters does not contain the pair (1, 2) at all
and tags every edge it makes. -/
theorem C2_counterexample :
    (Epidemic_Network_init c2Parameters (some c2Npi) 1 (some someRandomState)
        allTrue 0).map
      (fun (y : Parameters × SimState) =>
        (hasEdgeB y.2.g 1 2, y.2.g.edges.any (fun e => decide (e.ctype = none))))
      = Except.ok (true, true)
    ∧ (spec_npi_regenerated_graph [3, 3] c2Parameters c2Npi allTrue.rew
        allTrue.pick 0).map
      (fun g => (hasEdgeB g 1 2, g.edges.any (fun e => decide (e.ctype = none))))
      = Except.ok (false, false) :=
  ⟨by decide, by decide⟩

/-! ## Helper lemmas: the interact loop -/

theorem statusAttr_some {g : NXGraph} {v : Int} {s : Status}
    (h : statusAttr g v = some s) :
    ∃ a, lookupAttrs g v = some a ∧ a.status = some s := by
  unfold statusAttr at h
  rcases hl : lookupAttrs g v with _ | a
  · rw [hl] at h
    exact absurd h (by simp)
  · rw [hl] at h
    exact ⟨a, rfl, h⟩

/-- Unfolding equation for one interact candidate. -/
theorem interactGo_cons (bern : Nat → Bool) (p1 p2 : Int) (ct : Option CType)
    (rest : List (Int × Int × Option CType)) (g : NXGraph) (ix : Nat) :
    interactGo bern ((p1, p2, ct) :: rest) g ix =
      match statusAttr g p2 with
      | none => .error .keyError
      | some s =>
          if s = Status.susceptible then
            match ct with
            | none => .error .keyError
            | some _ =>
                interactGo bern rest
                  (if bern ix then setNodeInfected g p2 else g) (ix + 1)
          else interactGo bern rest g ix := rfl

/-- Unfolding equation for one trials candidate. -/
theorem trials_cons (bern : Nat → Bool) (p1 p2 : Int) (ct : Option CType)
    (rest : List (Int × Int × Option CType)) (g : NXGraph) (ix : Nat) :
    trials bern ((p1, p2, ct) :: rest) g ix =
      match statusAttr g p2 with
      | none => []
      | some s =>
          if s = Status.susceptible then
            match ct with
            | none => []
            | some _ =>
                (p2, ix) :: trials bern rest
                  (if bern ix then setNodeInfected g p2 else g) (ix + 1)
          else trials bern rest g ix := rfl

/-- The interact loop never changes the edge set or the node key list. -/
theorem interactGo_basic {bern : Nat → Bool} :
    ∀ (cs : List (Int × Int × Option CType)) (g : NXGraph) (ix : Nat)
      (g' : NXGraph) (ix' : Nat),
    interactGo bern cs g ix = .ok (g', ix') →
    g'.edges = g.edges ∧ g'.nodes.map Prod.fst = g.nodes.map Prod.fst
  | [], g, ix, g', ix', h => by
      have hp : (g, ix) = (g', ix') := Except.ok.inj h
      have hg : g = g' := congrArg Prod.fst hp
      subst hg
      exact ⟨rfl, rfl⟩
  | (p1, p2, ct) :: rest, g, ix, g', ix', h => by
      rw [interactGo_cons] at h
      rcases hst : statusAttr g p2 with _ | s
      · rw [hst] at h
        exact absurd h (by simp)
      · rw [hst] at h
        dsimp only at h
        by_cases hs : s = Status.susceptible
        · rw [if_pos hs] at h
          cases ct with
          | none => exact absurd h (by simp)
          | some c =>
              dsimp only at h
              by_cases hb : bern ix
              · rw [if_pos hb] at h
                obtain ⟨he, hk⟩ :=
                  interactGo_basic rest (setNodeInfected g p2) (ix + 1) g' ix' h
                rw [setNodeInfected_edges] at he
                rw [keys_setNodeInfected] at hk
                exact ⟨he, hk⟩
              · rw [if_neg hb] at h
                exact interactGo_basic rest g (ix + 1) g' ix' h
        · rw [if_neg hs] at h
          exact interactGo_basic rest g ix g' ix' h

/-- Per-node effect of the interact loop: each status is unchanged or
moves from susceptible to infected. -/
theorem interactGo_trans {bern : Nat → Bool} :
    ∀ (cs : List (Int × Int × Option CType)) (g : NXGraph) (ix : Nat)
      (g' : NXGraph) (ix' : Nat) (v : Int),
    interactGo bern cs g ix = .ok (g', ix') →
    statusAttr g' v = statusAttr g v ∨
      (statusAttr g v = some Status.susceptible ∧
        statusAttr g' v = some Status.infected)
  | [], g, ix, g', ix', v, h => by
      have hp : (g, ix) = (g', ix') := Except.ok.inj h
      have hg : g = g' := congrArg Prod.fst hp
      subst hg
      exact Or.inl rfl
  | (p1, p2, ct) :: rest, g, ix, g', ix', v, h => by
      rw [interactGo_cons] at h
      rcases hst : statusAttr g p2 with _ | s
      · rw [hst] at h
        exact absurd h (by simp)
      · rw [hst] at h
        dsimp only at h
        by_cases hs : s = Status.susceptible
        · rw [if_pos hs] at h
          cases ct with
          | none => exact absurd h (by simp)
          | some c =>
              dsimp only at h
              by_cases hb : bern ix
              · rw [if_pos hb] at h
                by_cases hv : v = p2
                · obtain ⟨a, hl, _⟩ := statusAttr_some hst
                  have hself : statusAttr (setNodeInfected g p2) v =
                      some Status.infected := by
                    rw [hv]
                    exact statusAttr_setNodeInfected_self hl
                  rcases interactGo_trans rest (setNodeInfected g p2) (ix + 1)
                      g' ix' v h with h1 | h1
                  · refine Or.inr ⟨?_, by rw [h1, hself]⟩
                    rw [hv, hst, hs]
                  · rw [hself] at h1
                    exact absurd (Option.some.inj h1.1) (by decide)
                · have hoth : statusAttr (setNodeInfected g p2) v =
                      statusAttr g v := statusAttr_setNodeInfected_other hv
                  rcases interactGo_trans rest (setNodeInfected g p2) (ix + 1)
                      g' ix' v h with h1 | h1
                  · exact Or.inl (h1.trans hoth)
                  · exact Or.inr ⟨hoth ▸ h1.1, h1.2⟩
              · rw [if_neg hb] at h
                exact interactGo_trans rest g (ix + 1) g' ix' v h
        · rw [if_neg hs] at h
          exact interactGo_trans rest g ix g' ix' v h

/-- A node that is already infected is never targeted by a Bernoulli
trial and its record survives the rest of the loop untouched. -/
theorem interactGo_frozen {bern : Nat → Bool} {v : Int} :
    ∀ (cs : List (Int × Int × Option CType)) (g : NXGraph) (ix : Nat)
      (g' : NXGraph) (ix' : Nat),
    statusAttr g v = some Status.infected →
    interactGo bern cs g ix = .ok (g', ix') →
    (∀ t ∈ trials bern cs g ix, t.1 ≠ v) ∧ lookupAttrs g' v = lookupAttrs g v
  | [], g, ix, g', ix', hinf, h => by
      have hp : (g, ix) = (g', ix') := Except.ok.inj h
      have hg : g = g' := congrArg Prod.fst hp
      subst hg
      exact ⟨fun t ht => absurd ht (List.not_mem_nil t), rfl⟩
  | (p1, p2, ct) :: rest, g, ix, g', ix', hinf, h => by
      rw [interactGo_cons] at h
      rcases hst : statusAttr g p2 with _ | s
      · rw [hst] at h
        exact absurd h (by simp)
      · rw [hst] at h
        dsimp only at h
        by_cases hs : s = Status.susceptible
        · have hne : p2 ≠ v := by
            intro heq
            rw [heq] at hst
            have hco : s = Status.infected := Option.some.inj (hst.symm.trans hinf)
            rw [hs] at hco
            exact absurd hco (by decide)
          rw [if_pos hs] at h
          cases ct with
          | none => exact absurd h (by simp)
          | some c =>
              dsimp only at h
              by_cases hb : bern ix
              · rw [if_pos hb] at h
                have hv2 : statusAttr (setNodeInfected g p2) v =
                    some Status.infected := by
                  rw [statusAttr_setNodeInfected_other (Ne.symm hne)]
                  exact hinf
                obtain ⟨htr, hlk⟩ := interactGo_frozen rest
                  (setNodeInfected g p2) (ix + 1) g' ix' hv2 h
                constructor
                · intro t ht
                  rw [trials_cons, hst] at ht
                  dsimp only at ht
                  rw [if_pos hs] at ht
                  rw [if_pos hb] at ht
                  rcases List.mem_cons.mp ht with h1 | h1
                  · rw [h1]
                    exact hne
                  · exact htr t h1
                · rw [hlk, lookupAttrs_setNodeInfected, if_neg (Ne.symm hne)]
              · rw [if_neg hb] at h
                obtain ⟨htr, hlk⟩ :=
                  interactGo_frozen rest g (ix + 1) g' ix' hinf h
                constructor
                · intro t ht
                  rw [trials_cons, hst] at ht
                  dsimp only at ht
                  rw [if_pos hs] at ht
                  rw [if_neg hb] at ht
                  rcases List.mem_cons.mp ht with h1 | h1
                  · rw [h1]
                    exact hne
                  · exact htr t h1
                · exact hlk
        · rw [if_neg hs] at h
          obtain ⟨htr, hlk⟩ := interactGo_frozen rest g ix g' ix' hinf h
          refine ⟨?_, hlk⟩
          intro t ht
          rw [trials_cons, hst] at ht
          dsimp only at ht
          rw [if_neg hs] at ht
          exact htr t ht

/-- Increment-free count bookkeeping helper: updating one key whose old
record fails the predicate to a record satisfying it raises the count by
one. -/
theorem countP_upd_tf {q : Int × NodeAttrs → Bool} {b : NodeAttrs}
    {l : List (Int × NodeAttrs)} {v : Int} {a : NodeAttrs}
    (hnd : (l.map Prod.fst).Nodup) (hmem : (v, a) ∈ l)
    (hfa : q (v, a) = false) (htb : q (v, b) = true) :
    (l.map (fun pa => if pa.1 = v then (pa.1, b) else pa)).countP q =
      l.countP q + 1 := by
  have h := countP_upd q b l v a hnd hmem
  rw [hfa, htb] at h
  simpa using h

/-- The interact loop preserves attribute well-formedness and the node
keys, and adds to the daily-case count exactly what it adds to the
non-susceptible count. -/
theorem interactGo_count {bern : Nat → Bool} :
    ∀ (cs : List (Int × Int × Option CType)) (g : NXGraph) (ix : Nat)
      (g' : NXGraph) (ix' : Nat),
    WF g → (g.nodes.map Prod.fst).Nodup →
    interactGo bern cs g ix = .ok (g', ix') →
    WF g' ∧ g'.nodes.map Prod.fst = g.nodes.map Prod.fst ∧
      count_daily_cases_value g' + nonSusc g =
        count_daily_cases_value g + nonSusc g'
  | [], g, ix, g', ix', hwf, hnd, h => by
      have hp : (g, ix) = (g', ix') := Except.ok.inj h
      have hg : g = g' := congrArg Prod.fst hp
      subst hg
      exact ⟨hwf, rfl, rfl⟩
  | (p1, p2, ct) :: rest, g, ix, g', ix', hwf, hnd, h => by
      rw [interactGo_cons] at h
      rcases hst : statusAttr g p2 with _ | s
      · rw [hst] at h
        exact absurd h (by simp)
      · rw [hst] at h
        dsimp only at h
        by_cases hs : s = Status.susceptible
        · rw [if_pos hs] at h
          cases ct with
          | none => exact absurd h (by simp)
          | some c =>
              dsimp only at h
              by_cases hb : bern ix
              · rw [if_pos hb] at h
                rw [hs] at hst
                obtain ⟨a, hl, hsa⟩ := statusAttr_some hst
                have hmem := lookup_mem hl
                have hWFa := hwf (p2, a) hmem
                have hdays : a.days_with_disease = none := by
                  refine hWFa.2 ?_
                  intro hc
                  rw [hsa] at hc
                  exact absurd (Option.some.inj hc) (by decide)
                have hnewF : newlyP (p2, a) = false := by
                  unfold newlyP
                  dsimp only
                  rw [hdays]
                have hnonF : nonSuscP (p2, a) = false := by
                  unfold nonSuscP
                  dsimp only
                  rw [hsa]
                have hsn : (setNodeInfected g p2).nodes =
                    g.nodes.map (fun pa => if pa.1 = p2 then
                      (pa.1, (⟨some Status.infected, some 1⟩ : NodeAttrs))
                    else pa) := rfl
                have hc1 : (setNodeInfected g p2).nodes.countP newlyP =
                    g.nodes.countP newlyP + 1 := by
                  rw [hsn]
                  exact countP_upd_tf hnd hmem hnewF rfl
                have hc2 : (setNodeInfected g p2).nodes.countP nonSuscP =
                    g.nodes.countP nonSuscP + 1 := by
                  rw [hsn]
                  exact countP_upd_tf hnd hmem hnonF rfl
                have hwf2 := WF_setNodeInfected hwf p2
                have hnd2 : ((setNodeInfected g p2).nodes.map Prod.fst).Nodup := by
                  rw [keys_setNodeInfected]
                  exact hnd
                obtain ⟨hwf3, hk3, hcnt⟩ := interactGo_count rest
                  (setNodeInfected g p2) (ix + 1) g' ix' hwf2 hnd2 h
                refine ⟨hwf3, ?_, ?_⟩
                · rw [hk3, keys_setNodeInfected]
                · have e1 : count_daily_cases_value (setNodeInfected g p2) =
                      (setNodeInfected g p2).nodes.countP newlyP := rfl
                  have e2 : nonSusc (setNodeInfected g p2) =
                      (setNodeInfected g p2).nodes.countP nonSuscP := rfl
                  have e3 : count_daily_cases_value g = g.nodes.countP newlyP := rfl
                  have e4 : nonSusc g = g.nodes.countP nonSuscP := rfl
                  omega
              · rw [if_neg hb] at h
                exact interactGo_count rest g (ix + 1) g' ix' hwf hnd h
        · rw [if_neg hs] at h
          exact interactGo_count rest g ix g' ix' hwf hnd h

/-- The interact loop over an appended candidate list is the loop over the
prefix followed by the loop over the suffix. -/
theorem interactGo_append {bern : Nat → Bool} :
    ∀ (a b : List (Int × Int × Option CType)) (g : NXGraph) (ix : Nat),
    interactGo bern (a ++ b) g ix =
      interactGo bern a g ix >>= fun r => interactGo bern b r.1 r.2
  | [], b, g, ix => rfl
  | (p1, p2, ct) :: rest, b, g, ix => by
      rw [List.cons_append, interactGo_cons, interactGo_cons]
      rcases hst : statusAttr g p2 with _ | s
      · rfl
      · dsimp only
        by_cases hs : s = Status.susceptible
        · rw [if_pos hs, if_pos hs]
          cases ct with
          | none => rfl
          | some c =>
              dsimp only
              exact interactGo_append rest b
                (if bern ix then setNodeInfected g p2 else g) (ix + 1)
        · rw [if_neg hs, if_neg hs]
          exact interactGo_append rest b g ix

/-! ## Helper lemmas: NPI regeneration, setup and the day loop -/

theorem WFattrs_plain : WFattrs (⟨none, none⟩ : NodeAttrs) :=
  ⟨fun hc => Option.noConfusion hc, fun _ => rfl⟩

theorem WFattrs_susc : WFattrs (⟨some Status.susceptible, none⟩ : NodeAttrs) :=
  ⟨fun hc => absurd (Option.some.inj hc) (by decide), fun _ => rfl⟩

theorem WFattrs_inf1 : WFattrs (⟨some Status.infected, some 1⟩ : NodeAttrs) :=
  ⟨fun _ => ⟨1, rfl, le_refl 1⟩, fun hc => absurd rfl hc⟩

theorem newlyP_plain {pa : Int × NodeAttrs}
    (h : pa.2 = (⟨none, none⟩ : NodeAttrs)) : newlyP pa = false := by
  unfold newlyP
  rw [h]

theorem nonSuscP_plain {pa : Int × NodeAttrs}
    (h : pa.2 = (⟨none, none⟩ : NodeAttrs)) : nonSuscP pa = false := by
  unfold nonSuscP
  rw [h]

/-- Appending attribute-less nodes never changes a status lookup. -/
theorem statusAttr_append_plain {g g' : NXGraph} {app : List (Int × NodeAttrs)}
    (hn : g'.nodes = g.nodes ++ app)
    (hpl : ∀ pa ∈ app, pa.2 = (⟨none, none⟩ : NodeAttrs)) (v : Int) :
    statusAttr g' v = statusAttr g v := by
  unfold statusAttr lookupAttrs
  rw [hn]
  have key : ∀ l : List (Int × NodeAttrs),
      (((l ++ app).find? (fun pa => pa.1 = v)).map (·.2)).bind (·.status) =
        ((l.find? (fun pa => pa.1 = v)).map (·.2)).bind (·.status) := by
    intro l
    induction l with
    | nil =>
        rw [List.nil_append, List.find?_nil]
        rcases hf : app.find? (fun pa => pa.1 = v) with _ | pa
        · rw [hf]
        · rw [hf]
          have hmem := List.mem_of_find?_eq_some hf
          show pa.2.status = none
          rw [hpl pa hmem]
    | cons pa l ih =>
        by_cases hv : pa.1 = v
        · rw [List.cons_append, List.find?_cons_of_pos _ (by simpa using hv),
            List.find?_cons_of_pos _ (by simpa using hv)]
        · rw [List.cons_append, List.find?_cons_of_neg _ (by simpa using hv),
            List.find?_cons_of_neg _ (by simpa using hv)]
          exact ih
  exact key g.nodes

/-- __make_structural_changes only appends fresh attribute-less nodes. -/
theorem make_structural_nodes {p : Parameters} {g : NXGraph} {rew : Nat → Bool}
    {pick : Nat → Nat} {fuel : Nat} {g' : NXGraph}
    (h : make_structural_changes p g rew pick fuel = .ok g') :
    ∃ app, g'.nodes = g.nodes ++ app ∧
      (∀ pa ∈ app, pa.2 = (⟨none, none⟩ : NodeAttrs)) ∧
      (keysNodup g → keysNodup g') := by
  unfold make_structural_changes at h
  rcases hH : watts_strogatz_graph (numberOfNodes g) p.D rew pick fuel with e | H
  · rw [hH] at h
    exact absurd h (by simp [Bind.bind, Except.bind])
  · rw [hH] at h
    simp only [Bind.bind, Except.bind] at h
    obtain ⟨app, hni, hpl, hknd⟩ := addEdgesFrom_nodes_extend (removeAllEdges g)
      (H.edges.map (fun e => (e.u, e.v))) none
    rw [← Except.ok.inj h]
    exact ⟨app, hni, hpl, hknd⟩

/-- __apply_NPI only appends fresh attribute-less nodes to the graph. -/
theorem apply_NPI_nodes {p : Parameters} {np : NpiParameters} {g : NXGraph}
    {rew : Nat → Bool} {pick : Nat → Nat} {fuel : Nat}
    {pg : Parameters × NXGraph}
    (h : apply_NPI p np g rew pick fuel = .ok pg) :
    ∃ app, pg.2.nodes = g.nodes ++ app ∧
      (∀ pa ∈ app, pa.2 = (⟨none, none⟩ : NodeAttrs)) ∧
      (keysNodup g → keysNodup pg.2) := by
  unfold apply_NPI at h
  dsimp only at h
  split at h
  · rcases hm : make_structural_changes (merge_parameters p np) g rew pick fuel
        with e | g4
    · rw [hm] at h
      exact absurd h (by simp [Except.map])
    · rw [hm] at h
      simp only [Except.map] at h
      obtain ⟨app, hni, hpl, hknd⟩ := make_structural_nodes hm
      rw [← Except.ok.inj h]
      exact ⟨app, hni, hpl, hknd⟩
  · rw [← Except.ok.inj h]
    exact ⟨[], (List.append_nil _).symm,
      fun pa hpa => absurd hpa (List.not_mem_nil pa), fun hk => hk⟩

/-- __apply_NPI preserves every status lookup. -/
theorem apply_NPI_statusAttr {p : Parameters} {np : NpiParameters} {g : NXGraph}
    {rew : Nat → Bool} {pick : Nat → Nat} {fuel : Nat}
    {pg : Parameters × NXGraph}
    (h : apply_NPI p np g rew pick fuel = .ok pg) (v : Int) :
    statusAttr pg.2 v = statusAttr g v := by
  obtain ⟨app, hni, hpl, _⟩ := apply_NPI_nodes h
  exact statusAttr_append_plain hni hpl v

/-- __apply_NPI preserves well-formedness, key distinctness and both node
counts used by the case bookkeeping. -/
theorem apply_NPI_props {p : Parameters} {np : NpiParameters} {g : NXGraph}
    {rew : Nat → Bool} {pick : Nat → Nat} {fuel : Nat}
    {pg : Parameters × NXGraph}
    (hwf : WF g) (hnd : keysNodup g)
    (h : apply_NPI p np g rew pick fuel = .ok pg) :
    WF pg.2 ∧ keysNodup pg.2 ∧
      count_daily_cases_value pg.2 = count_daily_cases_value g ∧
      nonSusc pg.2 = nonSusc g := by
  obtain ⟨app, hni, hpl, hknd⟩ := apply_NPI_nodes h
  have hz1 : app.countP newlyP = 0 :=
    List.countP_eq_zero.mpr (fun pa hpa => by simp [newlyP_plain (hpl pa hpa)])
  have hz2 : app.countP nonSuscP = 0 :=
    List.countP_eq_zero.mpr (fun pa hpa => by simp [nonSuscP_plain (hpl pa hpa)])
  refine ⟨?_, hknd hnd, ?_, ?_⟩
  · intro pa hpa
    rw [hni] at hpa
    rcases List.mem_append.mp hpa with hh | hh
    · exact hwf pa hh
    · rw [hpl pa hh]
      exact WFattrs_plain
  · show pg.2.nodes.countP newlyP = g.nodes.countP newlyP
    rw [hni, List.countP_append, hz1, Nat.add_zero]
  · show pg.2.nodes.countP nonSuscP = g.nodes.countP nonSuscP
    rw [hni, List.countP_append, hz2, Nat.add_zero]

/-- The clique loop keeps every node record empty and the keys distinct. -/
theorem add_cliques_go_nodes (newNodes : List Int) :
    ∀ (hs : List (Nat × Nat)) (a : Int) (g : NXGraph),
    (∀ pa ∈ g.nodes, pa.2 = (⟨none, none⟩ : NodeAttrs)) → keysNodup g →
    (∀ pa ∈ (CliqueGen.add_cliques_go newNodes hs a g).nodes,
        pa.2 = (⟨none, none⟩ : NodeAttrs)) ∧
      keysNodup (CliqueGen.add_cliques_go newNodes hs a g)
  | [], _, g, hp, hk => ⟨hp, hk⟩
  | (i, size) :: rest, a, g, hp, hk => by
      unfold CliqueGen.add_cliques_go
      split
      · exact add_cliques_go_nodes newNodes rest a g hp hk
      · obtain ⟨app, hni, hpl, hknd⟩ := addEdgesFrom_nodes_extend g
          (CliqueGen.create_edges (Int.ofNat i)
            (pySlice newNodes a (a + (size : Int) - 1))) (some CType.intra)
        refine add_cliques_go_nodes newNodes rest _ _ ?_ (hknd hk)
        intro pa hpa
        rw [hni] at hpa
        rcases List.mem_append.mp hpa with hh | hh
        · exact hp pa hh
        · exact hpl pa hh

theorem add_cliques_nodes {g : NXGraph}
    (hp : ∀ pa ∈ g.nodes, pa.2 = (⟨none, none⟩ : NodeAttrs)) (hk : keysNodup g)
    (dist : List Nat) :
    (∀ pa ∈ (CliqueGen.add_cliques_to_network g dist).nodes,
        pa.2 = (⟨none, none⟩ : NodeAttrs)) ∧
      keysNodup (CliqueGen.add_cliques_to_network g dist) := by
  unfold CliqueGen.add_cliques_to_network
  obtain ⟨app, hni, hpl, hknd⟩ := foldl_addNode_nodes_extend g
    (intRangeFrom g.nodes.length dist.sum)
  refine add_cliques_go_nodes _ _ _ _ ?_ (hknd hk)
  intro pa hpa
  rw [hni] at hpa
  rcases List.mem_append.mp hpa with hh | hh
  · exact hp pa hh
  · exact hpl pa hh

/-- Both shapes of the clique builder return graphs whose node records
are all empty and whose keys are distinct. -/
theorem clique_nodes_plain {inp : GraphInput} {k : Nat} {rew : Nat → Bool}
    {pick : Nat → Nat} {fuel : Nat} {g : NXGraph}
    (h : watts_strogatz_clique_graph inp k rew pick fuel = .ok g) :
    (∀ pa ∈ g.nodes, pa.2 = (⟨none, none⟩ : NodeAttrs)) ∧ keysNodup g := by
  cases inp with
  | dist hs =>
      simp only [watts_strogatz_clique_graph] at h
      rcases hH : watts_strogatz_graph hs.length k rew pick fuel with e | H
      · rw [hH] at h
        exact absurd h (by simp [Bind.bind, Except.bind])
      · rw [hH] at h
        simp only [Bind.bind, Except.bind] at h
        obtain ⟨_, _, _, _, h5, h6⟩ := ws_graph_props hH
        rw [← Except.ok.inj h]
        refine add_cliques_nodes ?_ ?_ hs
        · exact h5
        · exact h6
  | count n =>
      simp only [watts_strogatz_clique_graph] at h
      rcases hH : watts_strogatz_graph n k rew pick fuel with e | H
      · rw [hH] at h
        exact absurd h (by simp [Bind.bind, Except.bind])
      · rw [hH] at h
        simp only [Bind.bind, Except.bind] at h
        obtain ⟨_, _, _, _, h5, h6⟩ := ws_graph_props hH
        rw [← Except.ok.inj h]
        exact ⟨h5, h6⟩

/-- generate_epidemic_network produces all-susceptible records without a
day count, over distinct keys. -/
theorem generate_shape {inp : GraphInput} {k : Nat} {rew : Nat → Bool}
    {pick : Nat → Nat} {fuel : Nat} {g : NXGraph}
    (h : generate_epidemic_network inp k rew pick fuel = .ok g) :
    (∀ pa ∈ g.nodes,
        pa.2 = (⟨some Status.susceptible, none⟩ : NodeAttrs)) ∧ keysNodup g := by
  unfold generate_epidemic_network at h
  rcases hb : watts_strogatz_clique_graph inp k rew pick fuel with e | g0
  · rw [hb] at h
    exact absurd h (by simp [Bind.bind, Except.bind])
  · rw [hb] at h
    simp only [Bind.bind, Except.bind] at h
    obtain ⟨hp, hk⟩ := clique_nodes_plain hb
    rw [← Except.ok.inj h]
    constructor
    · intro pa hpa
      obtain ⟨pb, hpb, hpe⟩ := List.mem_map.mp hpa
      rw [← hpe]
      show ({ pb.2 with status := some Status.susceptible } : NodeAttrs) = _
      rw [hp pb hpb]
    · show ((setAllStatus g0 Status.susceptible).nodes.map Prod.fst).Nodup
      have hkeys : (setAllStatus g0 Status.susceptible).nodes.map Prod.fst =
          g0.nodes.map Prod.fst := by
        show (g0.nodes.map _).map Prod.fst = _
        rw [List.map_map]
        exact List.map_congr_left (fun pa _ => rfl)
      rw [hkeys]
      exact hk

/-- Infecting one node keeps every record in the two post-seed shapes. -/
theorem setNodeInfected_shape {g : NXGraph} {v : Int}
    (h : ∀ pa ∈ g.nodes,
        pa.2 = (⟨some Status.susceptible, none⟩ : NodeAttrs) ∨
        pa.2 = (⟨some Status.infected, some 1⟩ : NodeAttrs)) :
    ∀ pa ∈ (setNodeInfected g v).nodes,
        pa.2 = (⟨some Status.susceptible, none⟩ : NodeAttrs) ∨
        pa.2 = (⟨some Status.infected, some 1⟩ : NodeAttrs) := by
  intro pa hpa
  obtain ⟨pb, hpb, hpe⟩ := List.mem_map.mp hpa
  by_cases hv : pb.1 = v
  · rw [if_pos hv] at hpe
    rw [← hpe]
    exact Or.inr rfl
  · rw [if_neg hv] at hpe
    rw [← hpe]
    exact h pb hpb

theorem foldl_setNodeInfected_shape :
    ∀ (vs : List Int) (g : NXGraph),
    (∀ pa ∈ g.nodes,
        pa.2 = (⟨some Status.susceptible, none⟩ : NodeAttrs) ∨
        pa.2 = (⟨some Status.infected, some 1⟩ : NodeAttrs)) →
    ∀ pa ∈ (vs.foldl setNodeInfected g).nodes,
        pa.2 = (⟨some Status.susceptible, none⟩ : NodeAttrs) ∨
        pa.2 = (⟨some Status.infected, some 1⟩ : NodeAttrs)
  | [], _, h => h
  | v :: vs, g, h => by
      rw [List.foldl_cons]
      exact foldl_setNodeInfected_shape vs (setNodeInfected g v)
        (setNodeInfected_shape h)

theorem foldl_setNodeInfected_keys :
    ∀ (vs : List Int) (g : NXGraph),
    (vs.foldl setNodeInfected g).nodes.map Prod.fst = g.nodes.map Prod.fst
  | [], _ => rfl
  | v :: vs, g => by
      rw [List.foldl_cons, foldl_setNodeInfected_keys vs (setNodeInfected g v),
        keys_setNodeInfected]

/-- distribute_initial_infection leaves every record in one of the two
post-seed shapes and keeps the keys. -/
theorem distribute_shape {g : NXGraph} {i0 : Nat} {spick : Nat → Nat}
    {g' : NXGraph}
    (hp : ∀ pa ∈ g.nodes, pa.2 = (⟨some Status.susceptible, none⟩ : NodeAttrs))
    (hk : keysNodup g)
    (h : distribute_initial_infection g i0 spick = .ok g') :
    (∀ pa ∈ g'.nodes,
        pa.2 = (⟨some Status.susceptible, none⟩ : NodeAttrs) ∨
        pa.2 = (⟨some Status.infected, some 1⟩ : NodeAttrs)) ∧ keysNodup g' := by
  unfold distribute_initial_infection at h
  rcases hc : random_sample (g.nodes.map (·.1)) i0 spick 0 with e | chosen
  · rw [hc] at h
    exact absurd h (by simp [Bind.bind, Except.bind])
  · rw [hc] at h
    simp only [Bind.bind, Except.bind] at h
    rw [← Except.ok.inj h]
    constructor
    · exact foldl_setNodeInfected_shape chosen g (fun pa hpa => Or.inl (hp pa hpa))
    · show ((chosen.foldl setNodeInfected g).nodes.map Prod.fst).Nodup
      rw [foldl_setNodeInfected_keys]
      exact hk

/-- The construction phase: empty case series, stream index 0, the
original parameters, a well-formed graph over distinct keys on which the
newly-infected count and the ever-infected count agree. -/
theorem setup_props {p : Parameters} {rstate : Option RandomState} {rand : Rand}
    {fuel : Nat} {p' : Parameters} {x : SimState}
    (h : Epidemic_Network_setup p rstate rand fuel = .ok (p', x)) :
    p' = p ∧ x.daily_cases = [] ∧ x.bix = 0 ∧ WF x.g ∧ keysNodup x.g ∧
      count_daily_cases_value x.g = nonSusc x.g := by
  unfold Epidemic_Network_setup at h
  rcases hr : random_setstate rstate with e | u
  · rw [hr] at h
    exact absurd h (by simp [Bind.bind, Except.bind])
  · rw [hr] at h
    simp only [Bind.bind, Except.bind] at h
    rcases hg : generate_epidemic_network p.input p.D rand.rew rand.pick fuel
        with e | g0
    · rw [hg] at h
      exact absurd h (by simp [Except.bind])
    · rw [hg] at h
      simp only [Except.bind] at h
      rcases hd : distribute_initial_infection g0 p.i0 rand.spick with e | g1
      · rw [hd] at h
        exact absurd h (by simp [Except.bind])
      · rw [hd] at h
        simp only [Except.bind] at h
        have h1 : p = p' := congrArg Prod.fst (Except.ok.inj h)
        have h2 : (⟨g1, [], 0⟩ : SimState) = x := congrArg Prod.snd (Except.ok.inj h)
        obtain ⟨hps, hks⟩ := generate_shape hg
        obtain ⟨hsh, hk1⟩ := distribute_shape hps hks hd
        subst h2
        refine ⟨h1.symm, rfl, rfl, ?_, hk1, ?_⟩
        · intro pa hpa
          rcases hsh pa hpa with hh | hh <;> rw [hh]
          · exact WFattrs_susc
          · exact WFattrs_inf1
        · show g1.nodes.countP newlyP = g1.nodes.countP nonSuscP
          refine List.countP_congr ?_
          intro pa hpa
          have e1 : newlyP pa = nonSuscP pa := by
            rcases hsh pa hpa with hh | hh <;>
              · unfold newlyP nonSuscP
                rw [hh]
          rw [e1]

/-- The case series grows by exactly the start-of-day newly-infected
count, unconditionally. -/
theorem day_step_daily {rand : Rand} {fuel : Nat} {np : Option NpiParameters}
    {day : Nat} {x y : Parameters × SimState}
    (h : day_step rand fuel np day x = .ok y) :
    y.2.daily_cases = x.2.daily_cases ++ [count_daily_cases_value x.2.g] := by
  unfold day_step at h
  dsimp only at h
  rcases h2 : update_disease_progress x.1.d x.2.g with e | g2
  · rw [h2] at h
    exact absurd h (by simp [Bind.bind, Except.bind])
  · rw [h2] at h
    simp only [Bind.bind, Except.bind] at h
    rcases h3 : interact rand.bern g2 x.2.bix with e | gb
    · rw [h3] at h
      exact absurd h (by simp [Except.bind])
    · rw [h3] at h
      simp only [Except.bind] at h
      cases np with
      | none =>
          dsimp only at h
          rw [← Except.ok.inj h]
      | some npp =>
          dsimp only at h
          split at h
          · rcases ha : apply_NPI x.1 npp gb.1 rand.rew rand.pick fuel with e | pg
            · rw [ha] at h
              exact absurd h (by simp [Except.map])
            · rw [ha] at h
              simp only [Except.map] at h
              rw [← Except.ok.inj h]
          · rw [← Except.ok.inj h]

/-- One day of the loop: attribute well-formedness and key distinctness
are maintained and the appended count balances the growth of the
ever-infected count. -/
theorem day_step_props {rand : Rand} {fuel : Nat} {np : Option NpiParameters}
    {day : Nat} {x y : Parameters × SimState}
    (hwf : WF x.2.g) (hnd : keysNodup x.2.g)
    (h : day_step rand fuel np day x = .ok y) :
    WF y.2.g ∧ keysNodup y.2.g ∧
      y.2.daily_cases = x.2.daily_cases ++ [count_daily_cases_value x.2.g] ∧
      y.2.daily_cases.sum + count_daily_cases_value y.2.g + nonSusc x.2.g =
        x.2.daily_cases.sum + count_daily_cases_value x.2.g + nonSusc y.2.g := by
  unfold day_step at h
  dsimp only at h
  rcases h2 : update_disease_progress x.1.d x.2.g with e | g2
  · rw [h2] at h
    exact absurd h (by simp [Bind.bind, Except.bind])
  · rw [h2] at h
    simp only [Bind.bind, Except.bind] at h
    rcases h3 : interact rand.bern g2 x.2.bix with e | gb
    · rw [h3] at h
      exact absurd h (by simp [Except.bind])
    · rw [h3] at h
      simp only [Except.bind] at h
      obtain ⟨hed2, hfa⟩ := update_disease_progress_rel h2
      have hn2 : g2.nodes.countP newlyP = 0 := forall₂_progress_newly hfa hwf
      have hs2 : g2.nodes.countP nonSuscP = x.2.g.nodes.countP nonSuscP :=
        forall₂_progress_nonSusc hfa
      have hw2 : WF g2 := forall₂_progress_WF hfa hwf
      have hkk2 : g2.nodes.map Prod.fst = x.2.g.nodes.map Prod.fst :=
        (forall₂_keys hfa).symm
      have hnd2 : (g2.nodes.map Prod.fst).Nodup := by
        rw [hkk2]
        exact hnd
      have h3i := h3
      unfold interact at h3i
      obtain ⟨hw3, hk3, hc3⟩ := interactGo_count _ _ _ _ _ hw2 hnd2 h3i
      have e1 : count_daily_cases_value g2 = g2.nodes.countP newlyP := rfl
      have e2 : nonSusc g2 = g2.nodes.countP nonSuscP := rfl
      have e3 : count_daily_cases_value x.2.g = x.2.g.nodes.countP newlyP := rfl
      have e4 : nonSusc x.2.g = x.2.g.nodes.countP nonSuscP := rfl
      cases np with
      | none =>
          dsimp only at h
          rw [← Except.ok.inj h]
          refine ⟨hw3, ?_, rfl, ?_⟩
          · show (gb.1.nodes.map Prod.fst).Nodup
            rw [hk3, hkk2]
            exact hnd
          · show (x.2.daily_cases ++ [count_daily_cases_value x.2.g]).sum +
                count_daily_cases_value gb.1 + nonSusc x.2.g =
              x.2.daily_cases.sum + count_daily_cases_value x.2.g + nonSusc gb.1
            rw [List.sum_append]
            simp only [List.sum_cons, List.sum_nil]
            omega
      | some npp =>
          dsimp only at h
          split at h
          · rcases ha : apply_NPI x.1 npp gb.1 rand.rew rand.pick fuel with e | pg
            · rw [ha] at h
              exact absurd h (by simp [Except.map])
            · rw [ha] at h
              simp only [Except.map] at h
              have hnd3 : keysNodup gb.1 := by
                show (gb.1.nodes.map Prod.fst).Nodup
                rw [hk3, hkk2]
                exact hnd
              obtain ⟨hw4, hk4, hcd4, hns4⟩ := apply_NPI_props hw3 hnd3 ha
              rw [← Except.ok.inj h]
              refine ⟨hw4, hk4, rfl, ?_⟩
              show (x.2.daily_cases ++ [count_daily_cases_value x.2.g]).sum +
                  count_daily_cases_value pg.2 + nonSusc x.2.g =
                x.2.daily_cases.sum + count_daily_cases_value x.2.g + nonSusc pg.2
              rw [List.sum_append]
              simp only [List.sum_cons, List.sum_nil]
              omega
          · rw [← Except.ok.inj h]
            refine ⟨hw3, ?_, rfl, ?_⟩
            · show (gb.1.nodes.map Prod.fst).Nodup
              rw [hk3, hkk2]
              exact hnd
            · show (x.2.daily_cases ++ [count_daily_cases_value x.2.g]).sum +
                  count_daily_cases_value gb.1 + nonSusc x.2.g =
                x.2.daily_cases.sum + count_daily_cases_value x.2.g + nonSusc gb.1
              rw [List.sum_append]
              simp only [List.sum_cons, List.sum_nil]
              omega

/-- Invariants and case accounting over any number of loop iterations. -/
theorem run_days_props {rand : Rand} {fuel : Nat} {np : Option NpiParameters} :
    ∀ (t day : Nat) (x y : Parameters × SimState),
    WF x.2.g → keysNodup x.2.g →
    run_days rand fuel np day t x = .ok y →
    WF y.2.g ∧ keysNodup y.2.g ∧
      (∃ ext, y.2.daily_cases = x.2.daily_cases ++ ext ∧ ext.length = t) ∧
      y.2.daily_cases.sum + count_daily_cases_value y.2.g + nonSusc x.2.g =
        x.2.daily_cases.sum + count_daily_cases_value x.2.g + nonSusc y.2.g
  | 0, _, x, y, hwf, hnd, h => by
      have hp : x = y := Except.ok.inj h
      subst hp
      exact ⟨hwf, hnd, ⟨[], (List.append_nil _).symm, rfl⟩, rfl⟩
  | t + 1, day, x, y, hwf, hnd, h => by
      unfold run_days at h
      rcases hz : day_step rand fuel np day x with e | z
      · rw [hz] at h
        exact absurd h (by simp [Bind.bind, Except.bind])
      · rw [hz] at h
        simp only [Bind.bind, Except.bind] at h
        obtain ⟨hwz, hkz, hdz, haz⟩ := day_step_props hwf hnd hz
        obtain ⟨hwy, hky, ⟨ext, hey, hlen⟩, hay⟩ :=
          run_days_props t (day + 1) z y hwz hkz h
        refine ⟨hwy, hky,
          ⟨count_daily_cases_value x.2.g :: ext, ?_, by rw [List.length_cons, hlen]⟩,
          ?_⟩
        · rw [hey, hdz, List.append_assoc, List.singleton_append]
        · have hsz : z.2.daily_cases.sum =
              x.2.daily_cases.sum + count_daily_cases_value x.2.g := by
            rw [hdz, List.sum_append]
            simp only [List.sum_cons, List.sum_nil]
            omega
          omega

/-- Splitting the day loop at an intermediate day. -/
theorem run_days_split {rand : Rand} {fuel : Nat} {np : Option NpiParameters} :
    ∀ (i t day : Nat) (x : Parameters × SimState),
    run_days rand fuel np day (i + t) x =
      run_days rand fuel np day i x >>= run_days rand fuel np (day + i) t
  | 0, t, day, x => by
      rw [Nat.zero_add, Nat.add_zero]
      rfl
  | i + 1, t, day, x => by
      have hs : i + 1 + t = (i + t) + 1 := by omega
      rw [hs]
      show day_step rand fuel np day x >>= run_days rand fuel np (day + 1) (i + t) =
        (day_step rand fuel np day x >>= run_days rand fuel np (day + 1) i) >>=
          run_days rand fuel np (day + (i + 1)) t
      rcases hz : day_step rand fuel np day x with e | z
      · rfl
      · show run_days rand fuel np (day + 1) (i + t) z =
          run_days rand fuel np (day + 1) i z >>=
            run_days rand fuel np (day + (i + 1)) t
        rw [run_days_split i t (day + 1) z]
        have he : day + 1 + i = day + (i + 1) := by omega
        rw [he]

/-! ## Helper lemmas: status monotonicity and single-day peeling -/

theorem statusTrans_rank {a b : Option Status} (h : statusTrans a b) :
    statusRank a ≤ statusRank b := by
  rcases h with h | ⟨h1, h2⟩ | ⟨h1, h2⟩
  · exact le_of_eq (congrArg statusRank h.symm)
  · rw [h1, h2]
    decide
  · rw [h1, h2]
    decide

/-- Every phase of the day loop performs only legal status changes. -/
theorem applyStep_statusTrans {rand : Rand} {fuel : Nat} {npp : NpiParameters}
    {s : SimStep} {x y : Parameters × SimState}
    (h : applyStep rand fuel npp s x = .ok y) (v : Int) :
    statusTrans (statusAttr x.2.g v) (statusAttr y.2.g v) := by
  cases s with
  | count =>
      have hy := Except.ok.inj h
      rw [← hy]
      exact Or.inl rfl
  | progress =>
      simp only [applyStep] at h
      rcases hu : update_disease_progress x.1.d x.2.g with e | g2
      · rw [hu] at h
        exact absurd h (by simp [Except.map])
      · rw [hu] at h
        simp only [Except.map] at h
        rw [← Except.ok.inj h]
        obtain ⟨_, hfa⟩ := update_disease_progress_rel hu
        exact forall₂_progress_statusTrans hfa v x.2.g.edges g2.edges
  | transmit =>
      simp only [applyStep] at h
      rcases hi : interact rand.bern x.2.g x.2.bix with e | gb
      · rw [hi] at h
        exact absurd h (by simp [Except.map])
      · rw [hi] at h
        simp only [Except.map] at h
        rw [← Except.ok.inj h]
        have hi2 := hi
        unfold interact at hi2
        rcases interactGo_trans _ _ _ _ _ v hi2 with h1 | h1
        · exact Or.inl h1
        · exact Or.inr (Or.inl h1)
  | npi =>
      simp only [applyStep] at h
      rcases ha : apply_NPI x.1 npp x.2.g rand.rew rand.pick fuel with e | pg
      · rw [ha] at h
        exact absurd h (by simp [Except.map])
      · rw [ha] at h
        simp only [Except.map] at h
        rw [← Except.ok.inj h]
        exact Or.inl (apply_NPI_statusAttr ha v)

/-- Status rank never decreases over any sequence of day-loop phases. -/
theorem applySteps_rank {rand : Rand} {fuel : Nat} {npp : NpiParameters} :
    ∀ (steps : List SimStep) (x y : Parameters × SimState),
    applySteps rand fuel npp steps x = .ok y →
    ∀ v, statusRank (statusAttr x.2.g v) ≤ statusRank (statusAttr y.2.g v)
  | [], x, y, h, v => by
      have hp : x = y := Except.ok.inj h
      rw [← hp]
  | st :: rest, x, y, h, v => by
      unfold applySteps at h
      rcases hz : applyStep rand fuel npp st x with e | z
      · rw [hz] at h
        exact absurd h (by simp [Bind.bind, Except.bind])
      · rw [hz] at h
        simp only [Bind.bind, Except.bind] at h
        exact Nat.le_trans (statusTrans_rank (applyStep_statusTrans hz v))
          (applySteps_rank rest z y h v)

/-- No Bernoulli trial ever targets an already-infected node. -/
theorem trials_avoid {bern : Nat → Bool} {v : Int} :
    ∀ (cs : List (Int × Int × Option CType)) (g : NXGraph) (ix : Nat),
    statusAttr g v = some Status.infected →
    ∀ t ∈ trials bern cs g ix, t.1 ≠ v
  | [], _, _, _, t, ht => absurd ht (List.not_mem_nil t)
  | (p1, p2, ct) :: rest, g, ix, hinf, t, ht => by
      rw [trials_cons] at ht
      rcases hst : statusAttr g p2 with _ | s
      · rw [hst] at ht
        exact absurd ht (List.not_mem_nil t)
      · rw [hst] at ht
        dsimp only at ht
        by_cases hs : s = Status.susceptible
        · have hne : p2 ≠ v := by
            intro heq
            rw [heq] at hst
            have hco : s = Status.infected := Option.some.inj (hst.symm.trans hinf)
            rw [hs] at hco
            exact absurd hco (by decide)
          rw [if_pos hs] at ht
          cases ct with
          | none => exact absurd ht (List.not_mem_nil t)
          | some c =>
              dsimp only at ht
              by_cases hb : bern ix
              · rw [if_pos hb] at ht
                rcases List.mem_cons.mp ht with h1 | h1
                · rw [h1]
                  exact hne
                · refine trials_avoid rest (setNodeInfected g p2) (ix + 1) ?_ t h1
                  rw [statusAttr_setNodeInfected_other (Ne.symm hne)]
                  exact hinf
              · rw [if_neg hb] at ht
                rcases List.mem_cons.mp ht with h1 | h1
                · rw [h1]
                  exact hne
                · exact trials_avoid rest g (ix + 1) hinf t h1
        · rw [if_neg hs] at ht
          exact trials_avoid rest g ix hinf t ht

/-- A one-iteration run of the day loop is one day_step. -/
theorem run_days_one {rand : Rand} {fuel : Nat} {np : Option NpiParameters}
    {day : Nat} {x y : Parameters × SimState}
    (h : run_days rand fuel np day 1 x = .ok y) :
    day_step rand fuel np day x = .ok y := by
  have he : run_days rand fuel np day 1 x =
      day_step rand fuel np day x >>= run_days rand fuel np (day + 1) 0 := rfl
  rw [he] at h
  rcases hz : day_step rand fuel np day x with e | z
  · rw [hz] at h
    exact absurd h (by simp [Bind.bind, Except.bind])
  · rw [hz] at h
    simp only [Bind.bind, Except.bind] at h
    exact h

/-! ## Claim C3: monotone per-node status trajectories -/

/-- C3: in every simulation run, per-node status transitions are
monotonic along susceptible, infected, recovered.  First conjunct: every
single phase of the day loop (count, progress, transmit, NPI) performs
only the legal transitions: unchanged, susceptible to infected (the
transmit step), or infected to recovered (the progress step); in
particular no move out of recovered and no direct susceptible-to-
recovered move is possible.  Second conjunct: over any sequence of
phases, the rank of a node's status along
susceptible < infected < recovered never decreases. -/
theorem C3_theorem :
    (∀ (rand : Rand) (fuel : Nat) (npp : NpiParameters) (s : SimStep)
       (x y : Parameters × SimState),
       applyStep rand fuel npp s x = .ok y →
       ∀ v, statusTrans (statusAttr x.2.g v) (statusAttr y.2.g v)) ∧
    (∀ (rand : Rand) (fuel : Nat) (npp : NpiParameters) (steps : List SimStep)
       (x y : Parameters × SimState),
       applySteps rand fuel npp steps x = .ok y →
       ∀ v, statusRank (statusAttr x.2.g v) ≤ statusRank (statusAttr y.2.g v)) :=
  ⟨fun _ _ _ _ _ _ h v => applyStep_statusTrans h v,
   fun _ _ _ steps x y h v => applySteps_rank steps x y h v⟩

/-- C3 witness: the transmit phase on the concrete two-node graph with
one infected seed performs the legal susceptible-to-infected transition
on node 1, and its rank does not decrease. -/
theorem C3_witness :
    statusTrans (statusAttr c4Start 1) (statusAttr c4Mid 1) ∧
    statusRank (statusAttr c4Start 1) ≤ statusRank (statusAttr c4Mid 1) :=
  ⟨C3_theorem.1 allTrue 0 c2Npi SimStep.transmit
      (cexParameters, ⟨c4Start, [], 0⟩) (cexParameters, ⟨c4Mid, [], 1⟩)
      (by decide) 1,
   C3_theorem.2 allTrue 0 c2Npi [SimStep.transmit]
      (cexParameters, ⟨c4Start, [], 0⟩) (cexParameters, ⟨c4Mid, [], 1⟩)
      (by decide) 1⟩

/-! ## Claim C4: at most one infection per node per transmit step -/

/-- C4: within a single transmit step, a node that has become infected
partway through the step (susceptible at the start of the step, infected
after the prefix of candidates has been processed) is no longer eligible
as a susceptible target: no Bernoulli trial in the remainder of the step
targets it, its record survives the remainder untouched (still infected
with the same day count, so exactly one susceptible-to-infected
transition happened), and processing prefix plus suffix is exactly the
processing of the full candidate list of that one step. -/
theorem C4_theorem {bern : Nat → Bool}
    (a b : List (Int × Int × Option CType)) (g : NXGraph) (ix : Nat)
    (gm : NXGraph) (ixm : Nat) (v : Int)
    (hpre : interactGo bern a g ix = .ok (gm, ixm))
    (hsusc : statusAttr g v = some Status.susceptible)
    (hinf : statusAttr gm v = some Status.infected) :
    (∀ t ∈ trials bern b gm ixm, t.1 ≠ v) ∧
    ∀ g' ix', interactGo bern b gm ixm = .ok (g', ix') →
      lookupAttrs g' v = lookupAttrs gm v ∧
      statusAttr g' v = some Status.infected ∧
      interactGo bern (a ++ b) g ix = .ok (g', ix') := by
  refine ⟨trials_avoid b gm ixm hinf, ?_⟩
  intro g' ix' hsuf
  obtain ⟨htr, hlk⟩ := interactGo_frozen b gm ixm g' ix' hinf hsuf
  refine ⟨hlk, ?_, ?_⟩
  · show statusAttr g' v = some Status.infected
    unfold statusAttr
    rw [hlk]
    exact hinf
  · rw [interactGo_append, hpre]
    exact hsuf

/-- C4 witness: on the concrete two-node graph, node 1 is infected by the
first candidate edge; the second infectious edge into node 1 produces no
further trial and leaves its record untouched. -/
theorem C4_witness :
    (∀ t ∈ trials (fun _ => true) [(0, 1, some CType.intra)] c4Mid 1,
        t.1 ≠ 1) ∧
    ∀ g' ix', interactGo (fun _ => true) [(0, 1, some CType.intra)] c4Mid 1 =
        .ok (g', ix') →
      lookupAttrs g' 1 = lookupAttrs c4Mid 1 ∧
      statusAttr g' 1 = some Status.infected ∧
      interactGo (fun _ => true)
        ([(0, 1, some CType.inter)] ++ [(0, 1, some CType.intra)]) c4Start 0 =
        .ok (g', ix') :=
  C4_theorem [(0, 1, some CType.inter)] [(0, 1, some CType.intra)] c4Start 0
    c4Mid 1 1 (by decide) (by decide) (by decide)

/-! ## Claim C1: case-series accounting over a full run -/

/-- C1 (amended): for every completed construction, the sum of the
get_daily_cases entries plus the number of nodes whose days_with_disease
equals 1 when the run ends equals the number of nodes that ever had
status infected (counted as the nodes now infected or recovered, which
by C3 monotonicity from the all-susceptible pre-seed state are exactly
the ever-infected ones); the final-day infections are exactly the
uncounted remainder.  Both the sum and the ever-infected count never
exceed the total node count. -/
theorem C1_theorem {p : Parameters} {np : Option NpiParameters} {maxDays : Nat}
    {rstate : Option RandomState} {rand : Rand} {fuel : Nat}
    {pf : Parameters} {sf : SimState}
    (h : Epidemic_Network_init p np maxDays rstate rand fuel = .ok (pf, sf)) :
    sf.daily_cases.sum + count_daily_cases_value sf.g = nonSusc sf.g ∧
    nonSusc sf.g ≤ sf.g.nodes.length ∧
    sf.daily_cases.sum ≤ sf.g.nodes.length := by
  unfold Epidemic_Network_init at h
  rcases hs : Epidemic_Network_setup p rstate rand fuel with e | x0
  · rw [hs] at h
    exact absurd h (by simp [Bind.bind, Except.bind])
  · rw [hs] at h
    simp only [Bind.bind, Except.bind] at h
    obtain ⟨_, hd0, _, hwf0, hnd0, hcn0⟩ := setup_props hs
    obtain ⟨hwfF, hndF, ⟨ext, hext, hlen⟩, hacc⟩ :=
      run_days_props maxDays 1 x0 (pf, sf) hwf0 hnd0 h
    dsimp only at hext hacc
    rw [hd0, List.sum_nil] at hacc
    have hle : nonSusc sf.g ≤ sf.g.nodes.length := by
      show sf.g.nodes.countP nonSuscP ≤ sf.g.nodes.length
      exact List.countP_le_length nonSuscP
    refine ⟨?_, hle, ?_⟩
    · omega
    · omega

set_option maxRecDepth 16000 in
/-- C1 witness: the concrete deterministic two-node run: daily cases
[1], final-day remainder 1, two ever-infected nodes out of two. -/
theorem C1_witness :
    c1Result.2.daily_cases.sum + count_daily_cases_value c1Result.2.g =
        nonSusc c1Result.2.g ∧
      nonSusc c1Result.2.g ≤ c1Result.2.g.nodes.length ∧
      c1Result.2.daily_cases.sum ≤ c1Result.2.g.nodes.length :=
  @C1_theorem cexParameters none 1 (some someRandomState) allTrue 0
    c1Result.1 c1Result.2 (by decide)

/-! ## Claim C6: what each appended daily value is -/

/-- C6: on each simulated day, the value appended to the daily-case
series is the number of nodes whose days_with_disease equals 1 in the
state at the start of that day, recorded before that day's progression
and transmission run: the i-th series entry equals
count_daily_cases_value of the state reached after exactly i completed
days; and (the one-day lag) for i = j + 1 that value is exactly the
growth of the ever-infected count during day j + 1, i.e. the infections
produced by the previous day's transmit step. -/
theorem C6_theorem {p : Parameters} {np : Option NpiParameters} {maxDays : Nat}
    {rstate : Option RandomState} {rand : Rand} {fuel : Nat}
    {x0 : Parameters × SimState} {pf : Parameters} {sf : SimState}
    (hsetup : Epidemic_Network_setup p rstate rand fuel = .ok x0)
    (hrun : run_days rand fuel np 1 maxDays x0 = .ok (pf, sf)) :
    sf.daily_cases.length = maxDays ∧
    ∀ i, i < maxDays →
      ∃ xi, run_days rand fuel np 1 i x0 = .ok xi ∧
        sf.daily_cases[i]? = some (count_daily_cases_value xi.2.g) ∧
        ∀ j, i = j + 1 →
          ∃ xj, run_days rand fuel np 1 j x0 = .ok xj ∧
            count_daily_cases_value xi.2.g + nonSusc xj.2.g = nonSusc xi.2.g := by
  obtain ⟨_, hd0, _, hwf0, hnd0, _⟩ := setup_props hsetup
  obtain ⟨_, _, ⟨ext, hext, hlen⟩, _⟩ :=
    run_days_props maxDays 1 x0 (pf, sf) hwf0 hnd0 hrun
  dsimp only at hext
  have hlenF : sf.daily_cases.length = maxDays := by
    rw [hext, hd0, List.length_append, List.length_nil, hlen]
    omega
  refine ⟨hlenF, ?_⟩
  intro i hi
  have hiM : i + (maxDays - i) = maxDays := by omega
  have hrun2 : run_days rand fuel np 1 (i + (maxDays - i)) x0 = .ok (pf, sf) := by
    rw [hiM]
    exact hrun
  rw [run_days_split] at hrun2
  rcases hxi : run_days rand fuel np 1 i x0 with e | xi
  · rw [hxi] at hrun2
    exact absurd hrun2 (by simp [Bind.bind, Except.bind])
  · rw [hxi] at hrun2
    simp only [Bind.bind, Except.bind] at hrun2
    have hpos : maxDays - i = (maxDays - i - 1) + 1 := by omega
    rw [hpos] at hrun2
    have hone : run_days rand fuel np (1 + i) (maxDays - i - 1 + 1) xi =
        day_step rand fuel np (1 + i) xi >>=
          run_days rand fuel np (1 + i + 1) (maxDays - i - 1) := rfl
    rw [hone] at hrun2
    rcases hstep : day_step rand fuel np (1 + i) xi with e | z
    · rw [hstep] at hrun2
      exact absurd hrun2 (by simp [Bind.bind, Except.bind])
    · rw [hstep] at hrun2
      simp only [Bind.bind, Except.bind] at hrun2
      have hzd := day_step_daily hstep
      obtain ⟨hwfi, hndi, ⟨exti, hexti, hleni⟩, _⟩ :=
        run_days_props i 1 x0 xi hwf0 hnd0 hxi
      obtain ⟨hwz, hkz, _, _⟩ := day_step_props hwfi hndi hstep
      obtain ⟨_, _, ⟨ext2, hext2, _⟩, _⟩ :=
        run_days_props (maxDays - i - 1) (1 + i + 1) z (pf, sf) hwz hkz hrun2
      dsimp only at hext2
      have hxiL : xi.2.daily_cases.length = i := by
        rw [hexti, hd0, List.length_append, List.length_nil, hleni]
        omega
      have hidx : sf.daily_cases[i]? = some (count_daily_cases_value xi.2.g) := by
        rw [hext2, hzd, List.append_assoc]
        have hR : (xi.2.daily_cases ++
              ([count_daily_cases_value xi.2.g] ++ ext2))[i]? =
            ([count_daily_cases_value xi.2.g] ++
              ext2)[i - xi.2.daily_cases.length]? :=
          List.getElem?_append_right (by omega)
        have h0 : i - xi.2.daily_cases.length = 0 := by omega
        rw [hR, h0, List.singleton_append]
        exact List.getElem?_cons_zero
      refine ⟨xi, rfl, hidx, ?_⟩
      intro j hj
      subst hj
      have hxj2 : run_days rand fuel np 1 (j + 1) x0 = .ok xi := hxi
      rw [run_days_split j 1 1 x0] at hxj2
      rcases hxj : run_days rand fuel np 1 j x0 with e | xj
      · rw [hxj] at hxj2
        exact absurd hxj2 (by simp [Bind.bind, Except.bind])
      · rw [hxj] at hxj2
        simp only [Bind.bind, Except.bind] at hxj2
        obtain ⟨hwfj, hndj, _, _⟩ := run_days_props j 1 x0 xj hwf0 hnd0 hxj
        have hstep_j : day_step rand fuel np (1 + j) xj = .ok xi :=
          run_days_one hxj2
        obtain ⟨_, _, hdj, haj⟩ := day_step_props hwfj hndj hstep_j
        refine ⟨xj, rfl, ?_⟩
        have hsum : xi.2.daily_cases.sum =
            xj.2.daily_cases.sum + count_daily_cases_value xj.2.g := by
          rw [hdj, List.sum_append]
          simp only [List.sum_cons, List.sum_nil]
          omega
        omega

set_option maxRecDepth 16000 in
/-- C6 witness: in the concrete two-node one-day run the single series
entry is the newly-infected count of the post-setup state (the seed),
and there is no i = j + 1 below maxDays = 1. -/
theorem C6_witness :
    c1Result.2.daily_cases.length = 1 ∧
    ∀ i, i < 1 →
      ∃ xi, run_days allTrue 0 none 1 i c6Setup = .ok xi ∧
        c1Result.2.daily_cases[i]? = some (count_daily_cases_value xi.2.g) ∧
        ∀ j, i = j + 1 →
          ∃ xj, run_days allTrue 0 none 1 j c6Setup = .ok xj ∧
            count_daily_cases_value xi.2.g + nonSusc xj.2.g = nonSusc xi.2.g :=
  @C6_theorem cexParameters none 1 (some someRandomState) allTrue 0 c6Setup
    c1Result.1 c1Result.2 (by decide) (by decide)

end EpidemicSim
